import Mathlib

/-!
A hash-table dictionary (`dictionary.c`): load / check / size / unload.

Shallow embedding of `src/dictionary.c`.

* A C string is the list of its bytes before the terminating NUL; bytes are
  natural numbers (the words of the program are ASCII, bytes `1 .. 127`).
* A bucket chain (a `node *` and everything reachable through `next`) is a
  list of nodes; `NULL` is the empty list.  A pointer whose target has been
  passed to `free` is `Head.freed`.
* Dereferencing a released pointer, writing past a buffer and running out of
  loop fuel have no result: the operations that can do so return an `Option`.
* `malloc` is taken to succeed (the branch that prints `OUT OF MEMORY!` and
  returns without inserting is outside the model).
* `unsigned char` is arithmetic modulo `2^8`, `unsigned int` modulo `2^32`,
  `unsigned long` modulo `2^64` (LP64).
-/

namespace Dictionary

/-! ## Constants and data model -/

/-- Modelled from the spec: `LENGTH` is declared in `dictionary.h`, which is not
among the sources; it is the maximum word length (`MAX_WORD_LEN`), 45. -/
abbrev LENGTH : Nat := 45

/-- Number of buckets in the hash table (`const unsigned int N = 104729`). -/
abbrev N : Nat := 104729

/-- One `struct node` without its `next` link (the link is the tail of the
chain): the stored string and the cached `unsigned char wordLength`. -/
structure node where
  word : List Nat
  wordLength : Nat
deriving DecidableEq, Repr

/-- The value of one slot `table[i]`: a pointer to a chain of live nodes (`NULL`
is `chain []`), or a pointer to a node that has been released. -/
inductive Head where
  | chain (c : List node) : Head
  | freed : Head
deriving DecidableEq, Repr

/-- The global array `node *table[N]`. -/
abbrev Table := Fin N → Head

/-- The globals of `dictionary.c`: `table` and `numberOfWordsLoaded`. -/
structure State where
  table : Table
  numberOfWordsLoaded : Nat

/-- The assignment `table[i] = h`. -/
def setHead (t : Table) (i : Fin N) (h : Head) : Table :=
  fun j => if j = i then h else t j

/-! ## Library functions -/

/-- C-locale `tolower`: `'A' .. 'Z'` are moved to `'a' .. 'z'`, every other
byte is returned unchanged. -/
def tolower (c : Nat) : Nat :=
  if 65 ≤ c ∧ c ≤ 90 then c + 32 else c

/-- The byte `s[i]` of a C string: for `i = strlen s` it is the terminator. -/
def charAt (s : List Nat) (i : Nat) : Nat :=
  s.getD i 0

/-- The string held by a buffer: its bytes before the first NUL. -/
def cstr (buf : List Nat) : List Nat :=
  buf.takeWhile (fun c => c ≠ 0)

/-- Bytes taken by one `fgets` call that may still store `k` bytes: it stops
after a newline, at the end of the file, or when `k` bytes are stored.
Returns the bytes stored and the rest of the file. -/
def fgetsAux : Nat → List Nat → List Nat × List Nat
  | 0, rest => ([], rest)
  | _ + 1, [] => ([], [])
  | k + 1, c :: rest =>
    if c = 10 then ([c], rest)
    else ((c :: (fgetsAux k rest).1), (fgetsAux k rest).2)

/-- The call `fgets(buf, n, f)`: `none` (a `NULL` result) at the end of the
file, otherwise the bytes stored (at most `n - 1`) and the rest of the file. -/
def fgets (n : Nat) (f : List Nat) : Option (List Nat × List Nat) :=
  match f with
  | [] => none
  | _ :: _ => some (fgetsAux (n - 1) f)

/-! ## wordcmp -/

/-- The loop of `wordcmp` with `k` iterations to go, at index `i`. -/
def wordcmpLoop (word1 word2 : List Nat) : Nat → Nat → Bool
  | 0, _ => true
  | k + 1, i =>
    if tolower (charAt word1 i) ≠ tolower (charAt word2 i) then false
    else wordcmpLoop word1 word2 k (i + 1)

/-- Case insensitive word comparison over the first `wordLength` bytes. -/
def wordcmp (word1 word2 : List Nat) (wordLength : Nat) : Bool :=
  wordcmpLoop word1 word2 wordLength 0

/-! ## hash -/

/-- The loop of `hash`: `v` is the running `unsigned long`, `i` the index of
the next byte, the list holds the bytes from index `i` on. -/
def hashLoop : Nat → Nat → List Nat → Nat
  | v, _, [] => v
  | v, i, ch :: rest =>
    hashLoop (((v + i) * (tolower ch % 256)) % 2 ^ 64 / 8) (i + 1) rest

/-- Hashes word to a number.  For the empty string `word[0]` is the
terminator and the value is `0`. -/
def hash (word : List Nat) : Nat :=
  hashLoop (tolower (word.headD 0) % 2 ^ 64) 1 word.tail % N

/-- The slot `table[hash(word)]` as an index of the table. -/
def bucket (word : List Nat) : Fin N :=
  ⟨hash word, Nat.mod_lt _ (by decide)⟩

/-! ## check -/

/-- The `while` loop of `check` over the chain starting at `tmp`. -/
def checkWalk (word : List Nat) (wordLength : Nat) : List node → Bool
  | [] => false
  | tmp :: next =>
    if wordLength = tmp.wordLength then
      if wordcmp tmp.word word wordLength then true
      else checkWalk word wordLength next
    else if wordLength < tmp.wordLength then false
    else checkWalk word wordLength next

/-- Returns true if word is in dictionary else false; no result when the
bucket's head points at released memory. -/
def check (word : List Nat) (s : State) : Option Bool :=
  match s.table (bucket word) with
  | Head.freed => none
  | Head.chain c => some (checkWalk word (word.length % 256) c)

/-! ## putWordInTable -/

/-- The `while` loop of `putWordInTable`: advance while
`tmp != NULL && wordLength > tmp->wordLength`, then link the new node between
`prev` and `tmp`. -/
def spliceWalk (wordLength : Nat) (newNode : node) : List node → List node
  | [] => [newNode]
  | tmp :: next =>
    if wordLength > tmp.wordLength then tmp :: spliceWalk wordLength newNode next
    else newNode :: tmp :: next

/-- The chain part of `putWordInTable` (the code after `hash(word)`): empty
bucket, new head, or walk and splice. -/
def putInChain (wordLength : Nat) (newNode : node) : List node → List node
  | [] => [newNode]
  | tmp :: next =>
    if wordLength ≤ tmp.wordLength then newNode :: tmp :: next
    else spliceWalk wordLength newNode (tmp :: next)

/-- The function `putWordInTable`.  No result when `strcpy` would write past
`char word[LENGTH + 1]` or when the bucket's head points at released memory. -/
def putWordInTable (word : List Nat) (s : State) : Option State :=
  if word.length > LENGTH then none
  else
    match s.table (bucket word) with
    | Head.freed => none
    | Head.chain c =>
      some { s with
        table := setHead s.table (bucket word)
          (Head.chain (putInChain (word.length % 2 ^ 32)
            { word := word, wordLength := word.length % 2 ^ 32 % 256 } c)) }

/-! ## load, size, unload -/

/-- The loop `for (int i = 0; i < N; i++) table[i] = NULL;` run up to `k`. -/
def clearTable : Nat → Table → Table
  | 0, t => t
  | k + 1, t => fun j => if j.val = k then Head.chain [] else clearTable k t j

/-- The reading loop of `load`.  An iteration calls `fgets`, overwrites the
last byte of the string read, inserts it and counts it.  No result when the
string read is empty (the store goes to `word[-1]`), when the insert has none,
or when the fuel runs out. -/
def loadLoop : Nat → List Nat → State → Option State
  | 0, _, _ => none
  | fuel + 1, f, s =>
    match fgets (LENGTH + 2) f with
    | none => some s
    | some (buf, rest) =>
      if (cstr buf).length = 0 then none
      else
        match putWordInTable (cstr buf).dropLast s with
        | none => none
        | some s1 =>
          loadLoop fuel rest
            { s1 with numberOfWordsLoaded := (s1.numberOfWordsLoaded + 1) % 2 ^ 32 }

/-- Loads dictionary into memory; the source is `none` when `fopen` fails and
the bytes of the file otherwise.  Every `fgets` call of the loop takes at
least one byte, so `f.length + 1` iterations are enough. -/
def load (dictionary : Option (List Nat)) (s : State) : Option (Bool × State) :=
  let s0 : State := { table := clearTable N s.table, numberOfWordsLoaded := 0 }
  match dictionary with
  | none => some (false, s0)
  | some f =>
    match loadLoop (f.length + 1) f s0 with
    | none => none
    | some s1 => some (true, s1)

/-- Returns number of words in dictionary if loaded else 0 if not yet loaded. -/
def size (s : State) : Nat :=
  s.numberOfWordsLoaded

/-- The inner loop of `unload` on one bucket: every node of the chain is
passed to `free`; `table[i]` itself is not assigned, so a head that was not
`NULL` now points at released memory.  No result on an already released head. -/
def freeChain : Head → Option Head
  | Head.freed => none
  | Head.chain [] => some (Head.chain [])
  | Head.chain (_ :: _) => some Head.freed

/-- The outer loop of `unload` at bucket `i`, with `fuel` tests of `i < N`
still allowed; no result when the fuel runs out. -/
def unloadLoop : Nat → Nat → Table → Option Table
  | 0, _, _ => none
  | fuel + 1, i, t =>
    if h : i < N then
      match freeChain (t ⟨i, h⟩) with
      | none => none
      | some hd => unloadLoop fuel (i + 1) (setHead t ⟨i, h⟩ hd)
    else some t

/-- Unloads dictionary from memory, returning true.  The loop tests `i < N`
for `i = 0 .. N`, so `N + 1` tests are enough. -/
def unload (s : State) : Option (Bool × State) :=
  match unloadLoop (N + 1) 0 s.table with
  | none => none
  | some t => some (true, { s with table := t })

/-! ## Vocabulary of the specification -/

/-- An ASCII letter. -/
def isLetter (c : Nat) : Prop :=
  (65 ≤ c ∧ c ≤ 90) ∨ (97 ≤ c ∧ c ≤ 122)

instance (c : Nat) : Decidable (isLetter c) := by
  unfold isLetter; infer_instance

/-- A dictionary word: non-empty, at most `LENGTH` ASCII letters. -/
def isWord (w : List Nat) : Prop :=
  w ≠ [] ∧ w.length ≤ LENGTH ∧ ∀ c ∈ w, isLetter c

instance (w : List Nat) : Decidable (isWord w) := by
  unfold isWord; infer_instance

/-- Two bytes that are equal or are the upper-case and lower-case form of the
same ASCII letter. -/
def sameLetter (a b : Nat) : Prop :=
  a = b ∨ (65 ≤ a ∧ a ≤ 90 ∧ b = a + 32) ∨ (65 ≤ b ∧ b ≤ 90 ∧ a = b + 32)

instance (a b : Nat) : Decidable (sameLetter a b) := by
  unfold sameLetter; infer_instance

/-- Two strings that differ only in ASCII letter case: same length, and the
same letter up to case at every position. -/
def sameUpToCase : List Nat → List Nat → Prop
  | [], [] => True
  | a :: as, b :: bs => sameLetter a b ∧ sameUpToCase as bs
  | _, _ => False

instance sameUpToCaseDecidable : (a b : List Nat) → Decidable (sameUpToCase a b)
  | [], [] => isTrue trivial
  | a :: as, b :: bs =>
    have := sameUpToCaseDecidable as bs
    by unfold sameUpToCase; infer_instance
  | [], _ :: _ => isFalse (fun h => h)
  | _ :: _, [] => isFalse (fun h => h)

/-- The text of a source whose lines are the words `ws`, each line ended by a
newline. -/
def sourceOf : List (List Nat) → List Nat
  | [] => []
  | w :: ws => w ++ 10 :: sourceOf ws

/-- The table in which every head is `NULL`. -/
def emptyTable : Table :=
  fun _ => Head.chain []

/-- The cached lengths along a chain. -/
def lengths (c : List node) : List Nat :=
  c.map node.wordLength

/-- Every head of the table is a chain of live nodes. -/
def Live (t : Table) : Prop :=
  ∀ i, ∃ c, t i = Head.chain c

/-- Every head of the table is a live chain whose cached lengths are
non-decreasing. -/
def AllSorted (t : Table) : Prop :=
  ∀ i, ∃ c, t i = Head.chain c ∧ (lengths c).Sorted (fun a b => a ≤ b)

/-- A line of a source without its newline: at most `LENGTH` ASCII bytes, none
of them a NUL or a newline. -/
def isLine (w : List Nat) : Prop :=
  w.length ≤ LENGTH ∧ ∀ c ∈ w, c ≠ 0 ∧ c ≠ 10 ∧ c < 128

instance (w : List Nat) : Decidable (isLine w) := by
  unfold isLine; infer_instance

/-- The node that `putWordInTable` builds for a word of at most `LENGTH` bytes. -/
def nodeOf (w : List Nat) : node :=
  { word := w, wordLength := w.length }

/-- The state holds exactly the words `ws`: every chain is live and sorted by
cached length, every stored node is the node of a word of `ws` and sits in the
bucket of its hash, every word of `ws` has its node in its bucket, and the
counter is the number of words as an `unsigned int`. -/
structure Holds (ws : List (List Nat)) (s : State) : Prop where
  sorted : AllSorted s.table
  sound : ∀ i c, s.table i = Head.chain c → ∀ n ∈ c,
    n.word ∈ ws ∧ n = nodeOf n.word ∧ n.word.length ≤ LENGTH ∧ bucket n.word = i
  complete : ∀ w ∈ ws, ∃ c, s.table (bucket w) = Head.chain c ∧ nodeOf w ∈ c
  count : s.numberOfWordsLoaded = ws.length % 2 ^ 32

/-- What a head holds once `unload` has walked its chain: `NULL` stays `NULL`,
any other head keeps its pointer, which now points at released memory. -/
def afterFree : Head → Head
  | Head.chain [] => Head.chain []
  | Head.chain (_ :: _) => Head.freed
  | Head.freed => Head.freed

/-- A sequence of calls of `putWordInTable`, one for each word of the list in
order. -/
def putWords : List (List Nat) → State → Option State
  | [], s => some s
  | w :: ws, s =>
    match putWordInTable w s with
    | none => none
    | some s1 => putWords ws s1

/-- ASCII lower-casing as the specification words it: an upper-case letter is
replaced by its lower-case form, every other byte is kept. -/
def lowercase (c : Nat) : Nat :=
  if 65 ≤ c ∧ c ≤ 90 then c + 32 else c

/-- The recurrence of the specification in exact integer arithmetic, from the
value `v` reached before position `i`, over the remaining characters:
`v_i = floor(((v_{i-1} + i) * lowercase(w[i])) / 8)`. -/
def specRecurrence : Nat → Nat → List Nat → Nat
  | v, _, [] => v
  | v, i, ch :: rest => specRecurrence (((v + i) * lowercase ch) / 8) (i + 1) rest

/-- The hash value the specification states for a non-empty word: seed with
the lower-case first character, run the recurrence over the other characters
in exact arithmetic, take the result modulo `N`. -/
def specHash (w : List Nat) : Nat :=
  specRecurrence (lowercase (w.headD 0)) 1 w.tail % N

/-- The recurrence of the specification with every product reduced modulo
`2^64` before the division by 8. -/
def wrapRecurrence : Nat → Nat → List Nat → Nat
  | v, _, [] => v
  | v, i, ch :: rest =>
    wrapRecurrence ((((v + i) * lowercase ch) % 2 ^ 64) / 8) (i + 1) rest

/-- The hash value with the recurrence computed modulo `2^64`. -/
def wrapHash (w : List Nat) : Nat :=
  wrapRecurrence (lowercase (w.headD 0)) 1 w.tail % N

/-- A full scan of a chain: true when some entry has the length of the query
and equals it ignoring ASCII letter case. -/
def fullScan (word : List Nat) (c : List node) : Bool :=
  c.any (fun n => decide (n.word.length = word.length ∧ sameUpToCase n.word word))

/-- Every head of the table is a live chain, and every entry of bucket `i` has
a word that hashes to `i` and a cached length equal to the length of its word. -/
def Placed (t : Table) : Prop :=
  ∀ i : Fin N, ∃ c, t i = Head.chain c ∧
    ∀ n ∈ c, hash n.word = i.val ∧ n.wordLength = n.word.length

/-! ## Lemmas -/

theorem tolower_eq_iff (a b : Nat) : tolower a = tolower b ↔ sameLetter a b := by
  unfold tolower sameLetter
  split_ifs <;> omega

theorem sameUpToCase_length : ∀ {a b : List Nat}, sameUpToCase a b → a.length = b.length
  | [], [], _ => rfl
  | _ :: as, _ :: bs, h => by
    simp only [List.length_cons, Nat.add_right_cancel_iff]
    exact sameUpToCase_length h.2
  | [], _ :: _, h => h.elim
  | _ :: _, [], h => h.elim

theorem sameUpToCase_iff_map : ∀ (a b : List Nat),
    sameUpToCase a b ↔ a.map tolower = b.map tolower
  | [], [] => by simp [sameUpToCase]
  | x :: as, y :: bs => by
    simp only [sameUpToCase, List.map_cons, List.cons.injEq, tolower_eq_iff,
      sameUpToCase_iff_map as bs]
  | [], _ :: _ => by simp [sameUpToCase]
  | _ :: _, [] => by simp [sameUpToCase]

theorem charAt_tolower_of_map {a b : List Nat} (h : a.map tolower = b.map tolower) (i : Nat) :
    tolower (charAt a i) = tolower (charAt b i) := by
  have hl : a.length = b.length := by simpa using congrArg List.length h
  unfold charAt
  by_cases hi : i < a.length
  · have hi2 : i < b.length := hl ▸ hi
    have h1 : (a.map tolower)[i]? = (b.map tolower)[i]? := by rw [h]
    simp only [List.getD_eq_getElem?_getD]
    simp only [List.getElem?_map, List.getElem?_eq_getElem hi, List.getElem?_eq_getElem hi2,
      Option.map_some', Option.some.injEq] at h1
    simpa [List.getElem?_eq_getElem hi, List.getElem?_eq_getElem hi2] using h1
  · have hi2 : ¬ i < b.length := hl ▸ hi
    simp [List.getD_eq_getElem?_getD, List.getElem?_eq_none (Nat.le_of_not_lt hi),
      List.getElem?_eq_none (Nat.le_of_not_lt hi2)]

theorem wordcmpLoop_iff (a b : List Nat) : ∀ (k i : Nat),
    wordcmpLoop a b k i = true ↔ ∀ j, j < k → tolower (charAt a (i + j)) = tolower (charAt b (i + j))
  | 0, i => by simp [wordcmpLoop]
  | k + 1, i => by
    unfold wordcmpLoop
    by_cases h : tolower (charAt a i) = tolower (charAt b i)
    · simp only [h, ne_eq, not_true_eq_false, if_false, wordcmpLoop_iff a b k (i + 1)]
      constructor
      · intro hk j hj
        cases j with
        | zero => simpa using h
        | succ j =>
          have := hk j (by omega)
          simpa [Nat.add_assoc, Nat.add_comm 1 j] using this
      · intro hk j hj
        have := hk (j + 1) (by omega)
        simpa [Nat.add_assoc, Nat.add_comm 1 j] using this
    · simp only [ne_eq, h, not_false_eq_true, if_true]
      constructor
      · intro hf; cases hf
      · intro hk; exact absurd (by simpa using hk 0 (by omega)) h

theorem wordcmp_iff (a b : List Nat) (n : Nat) :
    wordcmp a b n = true ↔ ∀ j, j < n → tolower (charAt a j) = tolower (charAt b j) := by
  unfold wordcmp
  rw [wordcmpLoop_iff]
  simp

theorem hashLoop_congr : ∀ (a b : List Nat) (v i : Nat),
    a.map tolower = b.map tolower → hashLoop v i a = hashLoop v i b
  | [], [], _, _, _ => rfl
  | x :: as, y :: bs, v, i, h => by
    simp only [List.map_cons, List.cons.injEq] at h
    simp only [hashLoop, h.1]
    exact hashLoop_congr as bs _ _ h.2
  | [], _ :: _, _, _, h => by simp at h
  | _ :: _, [], _, _, h => by simp at h

theorem hash_congr {a b : List Nat} (h : a.map tolower = b.map tolower) : hash a = hash b := by
  unfold hash
  cases a with
  | nil =>
    cases b with
    | nil => rfl
    | cons y bs => simp at h
  | cons x as =>
    cases b with
    | nil => simp at h
    | cons y bs =>
      simp only [List.map_cons, List.cons.injEq] at h
      simp only [List.headD_cons, List.tail_cons, h.1]
      rw [hashLoop_congr as bs _ _ h.2]

theorem bucket_congr {a b : List Nat} (h : a.map tolower = b.map tolower) :
    bucket a = bucket b := by
  unfold bucket
  simp only [hash_congr h]

theorem wordcmp_congr_right (w : List Nat) {a b : List Nat}
    (h : a.map tolower = b.map tolower) (n : Nat) : wordcmp w a n = wordcmp w b n := by
  rw [Bool.eq_iff_iff, wordcmp_iff, wordcmp_iff]
  constructor
  · intro hk j hj; rw [hk j hj]; exact charAt_tolower_of_map h j
  · intro hk j hj; rw [hk j hj]; exact (charAt_tolower_of_map h j).symm

theorem checkWalk_congr {a b : List Nat} (h : a.map tolower = b.map tolower) (n : Nat) :
    ∀ c : List node, checkWalk a n c = checkWalk b n c
  | [] => rfl
  | tmp :: next => by
    simp only [checkWalk, wordcmp_congr_right tmp.word h n, checkWalk_congr h n next]

/-- C3: `check` is case-insensitive in its argument.  For every table state and every two
non-empty ASCII words of equal length that differ only in letter case, `check` gives the
same answer (the same boolean, or no result for both when the bucket head is a released
pointer), whether or not the word is in the table. -/
theorem check_case_insensitive (s : State) (W1 W2 : List Nat)
    (hne1 : W1 ≠ []) (hne2 : W2 ≠ [])
    (hascii1 : ∀ c ∈ W1, 0 < c ∧ c < 128) (hascii2 : ∀ c ∈ W2, 0 < c ∧ c < 128)
    (hlen : W1.length = W2.length) (hcase : sameUpToCase W1 W2) :
    check W1 s = check W2 s := by
  have hm := (sameUpToCase_iff_map W1 W2).1 hcase
  unfold check
  rw [bucket_congr hm, hlen]
  cases s.table (bucket W2) with
  | freed => rfl
  | chain c => simp only [checkWalk_congr hm]

/-- C3 at `"Hello"` and `"HELLO"` in the state whose bucket `hash("hello")` holds `"hello"`. -/
theorem check_case_insensitive_witness :
    check [72, 101, 108, 108, 111]
        { table := setHead emptyTable (bucket [104, 101, 108, 108, 111])
            (Head.chain [{ word := [104, 101, 108, 108, 111], wordLength := 5 }]),
          numberOfWordsLoaded := 1 }
      = check [72, 69, 76, 76, 79]
        { table := setHead emptyTable (bucket [104, 101, 108, 108, 111])
            (Head.chain [{ word := [104, 101, 108, 108, 111], wordLength := 5 }]),
          numberOfWordsLoaded := 1 } :=
  check_case_insensitive _ [72, 101, 108, 108, 111] [72, 69, 76, 76, 79]
    (by decide) (by decide) (by decide) (by decide) (by decide) (by decide)

/-! ### The clearing loop of `load` -/

theorem clearTable_apply : ∀ (k : Nat) (t : Table) (j : Fin N),
    clearTable k t j = if j.val < k then Head.chain [] else t j
  | 0, t, j => by simp [clearTable]
  | k + 1, t, j => by
    simp only [clearTable, clearTable_apply k t j]
    by_cases h1 : j.val = k
    · simp [h1]
    · by_cases h2 : j.val < k
      · simp [h1, h2, Nat.lt_succ_of_lt h2]
      · have h3 : ¬ j.val < k + 1 := by omega
        simp [h1, h2, h3]

theorem clearTable_N (t : Table) : clearTable N t = emptyTable := by
  funext j
  rw [clearTable_apply]
  simp [emptyTable, j.isLt]

/-! ### Reading one line -/

theorem fgetsAux_line : ∀ (w rest : List Nat) (k : Nat),
    w.length < k → (∀ c ∈ w, c ≠ 10) → fgetsAux k (w ++ 10 :: rest) = (w ++ [10], rest)
  | [], rest, k, hk, _ => by
    obtain ⟨k, rfl⟩ : ∃ m, k = m + 1 := ⟨k - 1, by simp at hk; omega⟩
    simp [fgetsAux]
  | x :: w, rest, k, hk, hw => by
    obtain ⟨k, rfl⟩ : ∃ m, k = m + 1 := ⟨k - 1, by simp at hk; omega⟩
    have hx : x ≠ 10 := hw x (List.mem_cons_self _ _)
    have ih := fgetsAux_line w rest k (by simp at hk; omega)
      (fun c hc => hw c (List.mem_cons_of_mem _ hc))
    simp [fgetsAux, hx, ih]

theorem fgets_line (w rest : List Nat) (hlen : w.length ≤ LENGTH) (hw : ∀ c ∈ w, c ≠ 10) :
    fgets (LENGTH + 2) (w ++ 10 :: rest) = some (w ++ [10], rest) := by
  have h := fgetsAux_line w rest (LENGTH + 1) (by omega) hw
  cases w with
  | nil => simpa [fgets] using h
  | cons x w => simpa [fgets] using h

theorem cstr_line (w : List Nat) (hw : ∀ c ∈ w, c ≠ 0) : cstr (w ++ [10]) = w ++ [10] := by
  unfold cstr
  rw [List.takeWhile_eq_self_iff]
  intro c hc
  rcases List.mem_append.1 hc with h | h
  · simpa using hw c h
  · simp at h; simp [h]

/-! ### The insert position -/

theorem spliceWalk_eq (L : Nat) (new : node) : ∀ c : List node,
    spliceWalk L new c
      = c.takeWhile (fun n => decide (n.wordLength < L))
        ++ new :: c.dropWhile (fun n => decide (n.wordLength < L))
  | [] => rfl
  | tmp :: next => by
    by_cases h : L > tmp.wordLength
    · have h2 : tmp.wordLength < L := h
      simp [spliceWalk, h, List.takeWhile_cons, List.dropWhile_cons, h2, spliceWalk_eq L new next]
    · have h2 : ¬ tmp.wordLength < L := h
      simp [spliceWalk, h, List.takeWhile_cons, List.dropWhile_cons, h2]

theorem putInChain_eq (L : Nat) (new : node) : ∀ c : List node,
    putInChain L new c
      = c.takeWhile (fun n => decide (n.wordLength < L))
        ++ new :: c.dropWhile (fun n => decide (n.wordLength < L))
  | [] => rfl
  | tmp :: next => by
    by_cases h : L ≤ tmp.wordLength
    · have h2 : ¬ tmp.wordLength < L := Nat.not_lt.2 h
      simp [putInChain, h, List.takeWhile_cons, List.dropWhile_cons, h2]
    · simp only [putInChain, h, if_false]
      exact spliceWalk_eq L new (tmp :: next)

theorem putInChain_perm (L : Nat) (new : node) (c : List node) :
    (putInChain L new c).Perm (new :: c) := by
  rw [putInChain_eq]
  refine List.perm_middle.trans (List.Perm.cons _ ?_)
  rw [List.takeWhile_append_dropWhile]

theorem mem_putInChain {L : Nat} {new : node} {c : List node} {n : node} :
    n ∈ putInChain L new c ↔ n = new ∨ n ∈ c := by
  rw [(putInChain_perm L new c).mem_iff, List.mem_cons]

theorem lengths_putInChain_sorted (L : Nat) (new : node) (hnew : new.wordLength = L)
    (c : List node) (hc : (lengths c).Sorted (fun a b => a ≤ b)) :
    (lengths (putInChain L new c)).Sorted (fun a b => a ≤ b) := by
  induction c with
  | nil => simp [putInChain, lengths]
  | cons tmp next ih =>
    rw [putInChain_eq]
    unfold lengths at hc ih ⊢
    by_cases h : tmp.wordLength < L
    · have hnext : (List.map node.wordLength next).Sorted (fun a b => a ≤ b) := by
        simp only [List.map_cons, List.sorted_cons] at hc
        exact hc.2
      have ih2 := ih hnext
      rw [putInChain_eq] at ih2
      simp only [List.takeWhile_cons, List.dropWhile_cons, h, decide_True, if_true,
        List.cons_append, List.map_cons, List.sorted_cons]
      refine ⟨?_, ih2⟩
      intro b hb
      simp only [List.map_append, List.map_cons, List.mem_append, List.mem_cons,
        List.mem_map] at hb
      simp only [List.map_cons, List.sorted_cons] at hc
      rcases hb with ⟨n, hn, rfl⟩ | rfl | ⟨n, hn, rfl⟩
      · exact hc.1 _ (List.mem_map_of_mem _ ((List.takeWhile_sublist _).subset hn))
      · omega
      · exact hc.1 _ (List.mem_map_of_mem _ ((List.dropWhile_sublist _).subset hn))
    · simp only [List.takeWhile_cons, List.dropWhile_cons, h, decide_False, Bool.false_eq_true, if_false,
        List.nil_append, List.map_cons, List.sorted_cons]
      simp only [List.map_cons, List.sorted_cons] at hc
      refine ⟨?_, hc⟩
      intro b hb
      simp only [List.mem_cons, List.mem_map] at hb
      rcases hb with rfl | ⟨n, hn, rfl⟩
      · omega
      · have := hc.1 _ (List.mem_map_of_mem _ hn); omega

/-! ### The walk of `check` -/

theorem charAt_of_lt {a : List Nat} {j : Nat} (h : j < a.length) : charAt a j = a[j] := by
  simp [charAt, List.getD_eq_getElem?_getD, List.getElem?_eq_getElem h]

theorem map_tolower_of_wordcmp {a b : List Nat} {n : Nat} (ha : a.length = n)
    (hb : b.length = n) (h : wordcmp a b n = true) : a.map tolower = b.map tolower := by
  rw [wordcmp_iff] at h
  apply List.ext_getElem
  · simp [ha, hb]
  · intro j h1 h2
    simp only [List.length_map] at h1 h2
    have := h j (ha ▸ h1)
    rw [charAt_of_lt h1, charAt_of_lt h2] at this
    simpa using this

theorem wordcmp_of_map_tolower {a b : List Nat} (h : a.map tolower = b.map tolower) (n : Nat) :
    wordcmp a b n = true := by
  rw [wordcmp_iff]
  intro j _
  exact charAt_tolower_of_map h j

theorem checkWalk_sound (q : List Nat) (L : Nat) : ∀ c : List node,
    checkWalk q L c = true → ∃ n ∈ c, n.wordLength = L ∧ wordcmp n.word q L = true
  | [], h => by simp [checkWalk] at h
  | tmp :: next, h => by
    unfold checkWalk at h
    by_cases h1 : L = tmp.wordLength
    · by_cases h2 : wordcmp tmp.word q L = true
      · exact ⟨tmp, List.mem_cons_self _ _, h1.symm, h2⟩
      · simp only [h1, if_true] at h
        rw [← h1] at h
        simp only [h2, Bool.false_eq_true, if_false] at h
        obtain ⟨n, hn, hr⟩ := checkWalk_sound q L next h
        exact ⟨n, List.mem_cons_of_mem _ hn, hr⟩
    · by_cases h3 : L < tmp.wordLength
      · simp [h1, h3] at h
      · simp only [h1, h3, if_false] at h
        obtain ⟨n, hn, hr⟩ := checkWalk_sound q L next h
        exact ⟨n, List.mem_cons_of_mem _ hn, hr⟩

theorem checkWalk_complete (q : List Nat) (L : Nat) : ∀ c : List node,
    (lengths c).Sorted (fun a b => a ≤ b) →
    (∃ n ∈ c, n.wordLength = L ∧ wordcmp n.word q L = true) → checkWalk q L c = true
  | [], _, h => by simp at h
  | tmp :: next, hs, h => by
    unfold lengths at hs
    simp only [List.map_cons, List.sorted_cons] at hs
    obtain ⟨n, hn, hlen, hcmp⟩ := h
    unfold checkWalk
    by_cases h1 : L = tmp.wordLength
    · by_cases h2 : wordcmp tmp.word q L = true
      · simp only [h1, if_true]
        rw [← h1]
        simp [h2]
      · have hne : n ≠ tmp := fun e => h2 (e ▸ hcmp)
        have hn2 : n ∈ next := by
          rcases List.mem_cons.1 hn with e | e
          · exact absurd e hne
          · exact e
        have ih := checkWalk_complete q L next hs.2 ⟨n, hn2, hlen, hcmp⟩
        simp only [h1, if_true]
        rw [← h1]
        simp [h2, ih]
    · have hn2 : n ∈ next := by
        rcases List.mem_cons.1 hn with e | e
        · exact absurd (e ▸ hlen).symm h1
        · exact e
      have hle : tmp.wordLength ≤ L := by
        have := hs.1 _ (List.mem_map_of_mem node.wordLength hn2)
        omega
      have h3 : ¬ L < tmp.wordLength := by omega
      have ih := checkWalk_complete q L next hs.2 ⟨n, hn2, hlen, hcmp⟩
      simp [h1, h3, ih]

/-! ### One insert into a state -/

theorem setHead_same (t : Table) (i : Fin N) (h : Head) : setHead t i h i = h := by
  simp [setHead]

theorem setHead_other (t : Table) {i j : Fin N} (h : Head) (hne : j ≠ i) :
    setHead t i h j = t j := by
  simp [setHead, hne]

theorem putWordInTable_live (w : List Nat) (s : State) (c : List node)
    (hlen : w.length ≤ LENGTH) (hc : s.table (bucket w) = Head.chain c) :
    putWordInTable w s
      = some { table := setHead s.table (bucket w)
                 (Head.chain (putInChain w.length (nodeOf w) c)),
               numberOfWordsLoaded := s.numberOfWordsLoaded } := by
  have h1 : ¬ w.length > LENGTH := Nat.not_lt.2 hlen
  have hlen2 : w.length ≤ 45 := hlen
  have h2 : w.length % 2 ^ 32 = w.length := Nat.mod_eq_of_lt (by omega)
  have h3 : w.length % 256 = w.length := Nat.mod_eq_of_lt (by omega)
  unfold putWordInTable
  simp only [h1, if_false, hc, h2, h3, nodeOf]

theorem allSorted_setHead {t : Table} (ht : AllSorted t) (i : Fin N) (c : List node)
    (hc : (lengths c).Sorted (fun a b => a ≤ b)) : AllSorted (setHead t i (Head.chain c)) := by
  intro j
  by_cases hj : j = i
  · subst hj
    exact ⟨c, setHead_same _ _ _, hc⟩
  · rw [setHead_other _ _ hj]
    exact ht j

theorem holds_insert {done : List (List Nat)} {s : State} (h : Holds done s)
    (w : List Nat) (hlen : w.length ≤ LENGTH) :
    ∃ c, s.table (bucket w) = Head.chain c ∧
      Holds (done ++ [w])
        { table := setHead s.table (bucket w)
            (Head.chain (putInChain w.length (nodeOf w) c)),
          numberOfWordsLoaded := (s.numberOfWordsLoaded + 1) % 2 ^ 32 } := by
  obtain ⟨c, hc, hsorted⟩ := h.sorted (bucket w)
  refine ⟨c, hc, ?_, ?_, ?_, ?_⟩
  · exact allSorted_setHead h.sorted _ _ (lengths_putInChain_sorted _ _ rfl c hsorted)
  · intro i c1 hc1 n hn
    by_cases hi : i = bucket w
    · subst hi
      simp only [setHead_same, Head.chain.injEq] at hc1
      subst hc1
      rcases mem_putInChain.1 hn with rfl | hn
      · exact ⟨by simp [nodeOf], rfl, hlen, rfl⟩
      · obtain ⟨a, b, d, e⟩ := h.sound _ c hc n hn
        exact ⟨List.mem_append_left _ a, b, d, e⟩
    · simp only [setHead_other _ _ hi] at hc1
      obtain ⟨a, b, d, e⟩ := h.sound _ c1 hc1 n hn
      exact ⟨List.mem_append_left _ a, b, d, e⟩
  · intro w1 hw1
    by_cases hb : bucket w1 = bucket w
    · refine ⟨putInChain w.length (nodeOf w) c, by simp [hb, setHead_same], ?_⟩
      rcases List.mem_append.1 hw1 with hw1 | hw1
      · obtain ⟨c1, hc1, hmem⟩ := h.complete w1 hw1
        rw [hb, hc] at hc1
        simp only [Head.chain.injEq] at hc1
        subst hc1
        exact mem_putInChain.2 (Or.inr hmem)
      · simp only [List.mem_singleton] at hw1
        subst hw1
        exact mem_putInChain.2 (Or.inl rfl)
    · rcases List.mem_append.1 hw1 with hw1 | hw1
      · obtain ⟨c1, hc1, hmem⟩ := h.complete w1 hw1
        exact ⟨c1, by simp [setHead_other _ _ hb, hc1], hmem⟩
      · simp only [List.mem_singleton] at hw1
        subst hw1
        exact absurd rfl hb
  · simp only [h.count, List.length_append, List.length_singleton]
    omega

/-! ### The reading loop of `load` -/

theorem loadLoop_lines : ∀ (ws done : List (List Nat)) (s : State) (fuel : Nat),
    Holds done s → (∀ w ∈ ws, isLine w) → ws.length < fuel →
    ∃ s1, loadLoop fuel (sourceOf ws) s = some s1 ∧ Holds (done ++ ws) s1
  | [], done, s, fuel, h, _, hf => by
    obtain ⟨k, rfl⟩ : ∃ m, fuel = m + 1 := ⟨fuel - 1, by simp at hf; omega⟩
    refine ⟨s, ?_, by simpa using h⟩
    simp [loadLoop, sourceOf, fgets]
  | w :: ws, done, s, fuel, h, hw, hf => by
    obtain ⟨k, rfl⟩ : ∃ m, fuel = m + 1 := ⟨fuel - 1, by simp at hf; omega⟩
    have hline : isLine w := hw w (List.mem_cons_self _ _)
    obtain ⟨c, hc, hstep⟩ := holds_insert h w hline.1
    have ih := loadLoop_lines ws (done ++ [w]) _ k hstep
      (fun x hx => hw x (List.mem_cons_of_mem _ hx)) (by simp at hf; omega)
    obtain ⟨s1, hs1, hholds⟩ := ih
    refine ⟨s1, ?_, by simpa using hholds⟩
    have hget := fgets_line w (sourceOf ws) hline.1 (fun x hx => (hline.2 x hx).2.1)
    have hstr := cstr_line w (fun x hx => (hline.2 x hx).1)
    have hput := putWordInTable_live w s c hline.1 hc
    have hdrop : (w ++ [10]).dropLast = w := by simp
    have hlen0 : ¬ (w ++ [10]).length = 0 := by simp
    unfold loadLoop
    simp only [sourceOf, hget, hstr, hlen0, if_false, hdrop, hput]
    exact hs1

theorem length_le_sourceOf : ∀ ws : List (List Nat), ws.length ≤ (sourceOf ws).length
  | [] => by simp [sourceOf]
  | w :: ws => by
    have := length_le_sourceOf ws
    simp only [sourceOf, List.length_cons, List.length_append]
    omega

theorem holds_cleared : Holds [] { table := emptyTable, numberOfWordsLoaded := 0 } := by
  refine ⟨?_, ?_, ?_, ?_⟩
  · intro i; exact ⟨[], rfl, by simp [lengths]⟩
  · intro i c hc n hn
    simp only [emptyTable, Head.chain.injEq] at hc
    subst hc
    simp at hn
  · intro w hw; simp at hw
  · simp

theorem load_lines (ws : List (List Nat)) (s : State) (hws : ∀ w ∈ ws, isLine w) :
    ∃ s1, load (some (sourceOf ws)) s = some (true, s1) ∧ Holds ws s1 := by
  have h := loadLoop_lines ws [] { table := emptyTable, numberOfWordsLoaded := 0 }
    ((sourceOf ws).length + 1) holds_cleared hws
    (Nat.lt_succ_of_le (length_le_sourceOf ws))
  obtain ⟨s1, hs1, hholds⟩ := h
  refine ⟨s1, ?_, by simpa using hholds⟩
  unfold load
  simp only [clearTable_N, hs1]

theorem isLine_of_isWord {w : List Nat} (h : isWord w) : isLine w := by
  refine ⟨h.2.1, fun c hc => ?_⟩
  have := h.2.2 c hc
  unfold isLetter at this
  omega

/-! ### Lookup in a state that holds a word list -/

theorem check_of_holds_mem {ws : List (List Nat)} {s : State} (h : Holds ws s)
    {W W1 : List Nat} (hW : W ∈ ws) (hlen : W.length ≤ LENGTH) (hcase : sameUpToCase W W1) :
    check W1 s = some true := by
  have hm := (sameUpToCase_iff_map W W1).1 hcase
  have hl : W.length = W1.length := sameUpToCase_length hcase
  obtain ⟨c, hc, hmem⟩ := h.complete W hW
  obtain ⟨c1, hc1, hsorted⟩ := h.sorted (bucket W)
  rw [hc] at hc1
  simp only [Head.chain.injEq] at hc1
  subst hc1
  have hlen2 : W1.length ≤ 45 := hl ▸ hlen
  have hmod : W1.length % 256 = W1.length := Nat.mod_eq_of_lt (by omega)
  unfold check
  rw [← bucket_congr hm, hc, hmod]
  simp only [Option.some.injEq]
  exact checkWalk_complete W1 W1.length c hsorted
    ⟨nodeOf W, hmem, hl, wordcmp_of_map_tolower hm _⟩

theorem check_of_holds_true {ws : List (List Nat)} {s : State} (h : Holds ws s)
    {W : List Nat} (hlen : W.length ≤ LENGTH) (hchk : check W s = some true) :
    ∃ w ∈ ws, w.length = W.length ∧ sameUpToCase w W := by
  obtain ⟨c, hc, _⟩ := h.sorted (bucket W)
  have hlen2 : W.length ≤ 45 := hlen
  have hmod : W.length % 256 = W.length := Nat.mod_eq_of_lt (by omega)
  unfold check at hchk
  rw [hc, hmod] at hchk
  simp only [Option.some.injEq] at hchk
  obtain ⟨n, hn, hnl, hcmp⟩ := checkWalk_sound W W.length c hchk
  obtain ⟨hmem, hnode, _, _⟩ := h.sound _ c hc n hn
  have hnl2 : n.word.length = W.length := by
    have : n.wordLength = n.word.length := by
      conv_lhs => rw [hnode]
      rfl
    omega
  exact ⟨n.word, hmem, hnl2,
    (sameUpToCase_iff_map _ _).2 (map_tolower_of_wordcmp hnl2 rfl hcmp)⟩

theorem check_of_holds_total {ws : List (List Nat)} {s : State} (h : Holds ws s)
    (W : List Nat) : check W s = some true ∨ check W s = some false := by
  obtain ⟨c, hc, _⟩ := h.sorted (bucket W)
  unfold check
  rw [hc]
  cases checkWalk W (W.length % 256) c <;> simp

/-- C1: completeness of lookup.  For every source that opens and whose lines are non-empty
words of at most `LENGTH` ASCII letters, each ended by a newline, `load` returns true from
any prior state, and in the state it produces `check` returns true for every string that
differs from a word of the source only in ASCII letter case. -/
theorem check_complete_after_load (ws : List (List Nat)) (s : State)
    (hws : ∀ w ∈ ws, isWord w) :
    ∃ s1, load (some (sourceOf ws)) s = some (true, s1) ∧
      ∀ W ∈ ws, ∀ W1, sameUpToCase W W1 → check W1 s1 = some true := by
  obtain ⟨s1, hload, hholds⟩ := load_lines ws s (fun w hw => isLine_of_isWord (hws w hw))
  exact ⟨s1, hload, fun W hW W1 hcase =>
    check_of_holds_mem hholds hW (hws W hW).2.1 hcase⟩

/-- C1 at the source `cat`, `dog`, `elephant` loaded over a state whose counter
holds 7: one state is produced by `load` and `check("CAT")` is true in it. -/
theorem check_complete_after_load_witness :
    (∀ w ∈ [[99, 97, 116], [100, 111, 103], [101, 108, 101, 112, 104, 97, 110, 116]],
      isWord w) ∧
    ∃ s1, load (some (sourceOf
        [[99, 97, 116], [100, 111, 103], [101, 108, 101, 112, 104, 97, 110, 116]]))
        { table := emptyTable, numberOfWordsLoaded := 7 } = some (true, s1) ∧
      check [67, 65, 84] s1 = some true :=
  ⟨by decide,
    (check_complete_after_load
      [[99, 97, 116], [100, 111, 103], [101, 108, 101, 112, 104, 97, 110, 116]]
      { table := emptyTable, numberOfWordsLoaded := 7 } (by decide)).imp
      (fun _ h => ⟨h.1, h.2 [99, 97, 116] (by decide) [67, 65, 84] (by decide)⟩)⟩

/-- Soundness of lookup on a source in which every line is a word ended by a newline.  In
the state produced by `load`, for every query word `W` of at most `LENGTH` characters:
`check(W)` returns true only if some loaded word has the same length as `W` and equals it
ignoring case, and it returns false when no word of the source equals `W` up to case. -/
theorem check_sound_after_load (ws : List (List Nat)) (s : State)
    (hws : ∀ w ∈ ws, isWord w) :
    ∃ s1, load (some (sourceOf ws)) s = some (true, s1) ∧
      ∀ W : List Nat, W.length ≤ LENGTH →
        (check W s1 = some true → ∃ w ∈ ws, w.length = W.length ∧ sameUpToCase w W) ∧
        ((∀ w ∈ ws, ¬ sameUpToCase w W) → check W s1 = some false) := by
  obtain ⟨s1, hload, hholds⟩ := load_lines ws s (fun w hw => isLine_of_isWord (hws w hw))
  refine ⟨s1, hload, fun W hlen => ⟨check_of_holds_true hholds hlen, fun hno => ?_⟩⟩
  rcases check_of_holds_total hholds W with ht | hf
  · obtain ⟨w, hw, _, hcase⟩ := check_of_holds_true hholds hlen ht
    exact absurd hcase (hno w hw)
  · exact hf

/-- Soundness at the source `cat`, `dog`, `elephant`, every line ended by a newline: in
the state produced by `load`, `check("cats")` is false. -/
theorem check_sound_after_load_witness :
    (∀ w ∈ [[99, 97, 116], [100, 111, 103], [101, 108, 101, 112, 104, 97, 110, 116]],
      isWord w) ∧
    ∃ s1, load (some (sourceOf
        [[99, 97, 116], [100, 111, 103], [101, 108, 101, 112, 104, 97, 110, 116]]))
        { table := emptyTable, numberOfWordsLoaded := 0 } = some (true, s1) ∧
      check [99, 97, 116, 115] s1 = some false :=
  ⟨by decide,
    (check_sound_after_load
      [[99, 97, 116], [100, 111, 103], [101, 108, 101, 112, 104, 97, 110, 116]]
      { table := emptyTable, numberOfWordsLoaded := 0 } (by decide)).imp
      (fun _ h => ⟨h.1, (h.2 [99, 97, 116, 115] (by decide)).2 (by decide)⟩)⟩

/-! ### `load` on an arbitrary file without NUL bytes -/

theorem fgetsAux_append : ∀ (k : Nat) (f : List Nat), (fgetsAux k f).1 ++ (fgetsAux k f).2 = f
  | 0, f => by simp [fgetsAux]
  | _ + 1, [] => by simp [fgetsAux]
  | k + 1, c :: rest => by
    by_cases h : c = 10
    · simp [fgetsAux, h]
    · simp [fgetsAux, h, fgetsAux_append k rest]

theorem fgetsAux_length_le : ∀ (k : Nat) (f : List Nat), (fgetsAux k f).1.length ≤ k
  | 0, f => by simp [fgetsAux]
  | _ + 1, [] => by simp [fgetsAux]
  | k + 1, c :: rest => by
    by_cases h : c = 10
    · simp [fgetsAux, h]
    · simpa [fgetsAux, h] using fgetsAux_length_le k rest

theorem fgetsAux_ne_nil (k : Nat) (c : Nat) (rest : List Nat) :
    (fgetsAux (k + 1) (c :: rest)).1 ≠ [] := by
  by_cases h : c = 10
  · simp [fgetsAux, h]
  · simp [fgetsAux, h]

theorem cstr_of_no_nul (buf : List Nat) (h : ∀ c ∈ buf, c ≠ 0) : cstr buf = buf := by
  unfold cstr
  rw [List.takeWhile_eq_self_iff]
  intro c hc
  simpa using h c hc

theorem putWordInTable_sorted (w : List Nat) (s : State) (hlen : w.length ≤ LENGTH)
    (hs : AllSorted s.table) :
    ∃ s1, putWordInTable w s = some s1 ∧ AllSorted s1.table ∧
      s1.numberOfWordsLoaded = s.numberOfWordsLoaded := by
  obtain ⟨c, hc, hsorted⟩ := hs (bucket w)
  exact ⟨_, putWordInTable_live w s c hlen hc,
    allSorted_setHead hs _ _ (lengths_putInChain_sorted _ _ rfl c hsorted), rfl⟩

theorem loadLoop_total : ∀ (fuel : Nat) (f : List Nat) (s : State),
    AllSorted s.table → (∀ c ∈ f, c ≠ 0) → f.length < fuel →
    ∃ s1, loadLoop fuel f s = some s1 ∧ AllSorted s1.table
  | 0, f, _, _, _, hf => by simp at hf
  | fuel + 1, [], s, hs, _, _ => ⟨s, by simp [loadLoop, fgets], hs⟩
  | fuel + 1, c :: rest, s, hs, hnul, hf => by
    have happ := fgetsAux_append (LENGTH + 1) (c :: rest)
    have hle := fgetsAux_length_le (LENGTH + 1) (c :: rest)
    have hne := fgetsAux_ne_nil LENGTH c rest
    generalize hb : (fgetsAux (LENGTH + 1) (c :: rest)).1 = buf at happ hle hne
    generalize hr : (fgetsAux (LENGTH + 1) (c :: rest)).2 = rst at happ
    have hbuf : ∀ x ∈ buf, x ≠ 0 := fun x hx =>
      hnul x (happ ▸ List.mem_append_left _ hx)
    have hrst : ∀ x ∈ rst, x ≠ 0 := fun x hx =>
      hnul x (happ ▸ List.mem_append_right _ hx)
    have hpos : 0 < buf.length := List.length_pos.2 hne
    have hrlen : rst.length < fuel := by
      have := congrArg List.length happ
      simp only [List.length_append, List.length_cons] at this
      simp only [List.length_cons] at hf
      omega
    have hdl : buf.dropLast.length ≤ LENGTH := by
      simp only [List.length_dropLast]
      omega
    obtain ⟨s1, hput, hs1, _⟩ := putWordInTable_sorted buf.dropLast s hdl hs
    obtain ⟨s2, hloop, hs2⟩ := loadLoop_total fuel rst
      { s1 with numberOfWordsLoaded := (s1.numberOfWordsLoaded + 1) % 2 ^ 32 } hs1 hrst hrlen
    refine ⟨s2, ?_, hs2⟩
    have hfg : fgets (LENGTH + 2) (c :: rest) = some (buf, rst) := by
      simp [fgets, ← hb, ← hr]
    have hlen0 : ¬ buf.length = 0 := by omega
    unfold loadLoop
    simp only [hfg, cstr_of_no_nul buf hbuf, hlen0, if_false, hput]
    exact hloop

theorem allSorted_empty : AllSorted emptyTable :=
  fun _ => ⟨[], rfl, by simp [lengths]⟩

theorem load_total (f : List Nat) (s : State) (hnul : ∀ c ∈ f, c ≠ 0) :
    ∃ s1, load (some f) s = some (true, s1) ∧ AllSorted s1.table := by
  obtain ⟨s1, hloop, hs1⟩ := loadLoop_total (f.length + 1) f
    { table := emptyTable, numberOfWordsLoaded := 0 } allSorted_empty hnul (Nat.lt_succ_self _)
  refine ⟨s1, ?_, hs1⟩
  unfold load
  simp only [clearTable_N, hloop]

theorem load_none (s : State) :
    load none s = some (false, { table := emptyTable, numberOfWordsLoaded := 0 }) := by
  unfold load
  simp only [clearTable_N]

/-! ### The loops of `unload` -/

theorem freeChain_chain (c : List node) :
    freeChain (Head.chain c) = some (afterFree (Head.chain c)) := by
  cases c <;> rfl

theorem unloadLoop_live : ∀ (fuel i : Nat) (t : Table),
    (∀ j : Fin N, i ≤ j.val → ∃ c, t j = Head.chain c) → i ≤ N → N < i + fuel →
    unloadLoop fuel i t = some (fun j => if i ≤ j.val then afterFree (t j) else t j)
  | 0, i, t, _, hi, hf => by omega
  | fuel + 1, i, t, ht, _, hf => by
    unfold unloadLoop
    by_cases hi : i < N
    · obtain ⟨c, hc⟩ := ht ⟨i, hi⟩ (Nat.le_refl _)
      have ht1 : ∀ j : Fin N, i + 1 ≤ j.val →
          ∃ c1, setHead t ⟨i, hi⟩ (afterFree (Head.chain c)) j = Head.chain c1 := by
        intro j hj
        have hne : j ≠ ⟨i, hi⟩ := fun e => by rw [e] at hj; simp at hj
        rw [setHead_other _ _ hne]
        exact ht j (by omega)
      have ih := unloadLoop_live fuel (i + 1) _ ht1 (by omega) (by omega)
      simp only [hi, dite_true, hc, freeChain_chain, ih, Option.some.injEq]
      funext j
      by_cases h1 : j = ⟨i, hi⟩
      · subst h1
        simp [setHead_same, hc]
      · have h2 : j.val ≠ i := fun e => h1 (Fin.ext e)
        rw [setHead_other _ _ h1]
        by_cases h3 : i + 1 ≤ j.val
        · have h4 : i ≤ j.val := by omega
          simp only [h3, h4, if_true]
        · have h4 : ¬ i ≤ j.val := by omega
          simp only [h3, h4, if_false]
    · simp only [hi, dite_false, Option.some.injEq]
      funext j
      have h3 : ¬ i ≤ j.val := by have := j.isLt; omega
      simp only [h3, if_false]

theorem unload_live (s : State) (hs : Live s.table) :
    unload s = some (true, { table := fun j => afterFree (s.table j),
                             numberOfWordsLoaded := s.numberOfWordsLoaded }) := by
  have h := unloadLoop_live (N + 1) 0 s.table (fun j _ => hs j) (by omega) (by omega)
  have h2 : (fun j : Fin N => if 0 ≤ j.val then afterFree (s.table j) else s.table j)
      = fun j => afterFree (s.table j) := by
    funext j
    exact if_pos (Nat.zero_le _)
  rw [h2] at h
  unfold unload
  rw [h]

theorem live_of_allSorted {t : Table} (h : AllSorted t) : Live t :=
  fun i => (h i).imp (fun _ hc => hc.1)

/-- C4 (as the code has it): after a successful `load` of a source with `n` lines, each a
newline-terminated word of at most `LENGTH` characters, `size()` returns `n` modulo `2^32`
(the counter is an `unsigned int`), whatever the counter held before and including
duplicate words; it is exactly `n` whenever `n < 2^32`. -/
theorem size_after_load (ws : List (List Nat)) (s : State) (hws : ∀ w ∈ ws, isLine w) :
    ∃ s1, load (some (sourceOf ws)) s = some (true, s1) ∧
      size s1 = ws.length % 2 ^ 32 ∧ (ws.length < 2 ^ 32 → size s1 = ws.length) := by
  obtain ⟨s1, hload, hholds⟩ := load_lines ws s hws
  refine ⟨s1, hload, hholds.count, fun hlt => ?_⟩
  rw [size, hholds.count, Nat.mod_eq_of_lt hlt]

/-- C4 at the source `cat`, `dog`, `cat` loaded over a state whose counter holds 7:
`size()` is 3. -/
theorem size_after_load_witness :
    (∀ w ∈ [[99, 97, 116], [100, 111, 103], [99, 97, 116]], isLine w) ∧
    ∃ s1, load (some (sourceOf [[99, 97, 116], [100, 111, 103], [99, 97, 116]]))
        { table := emptyTable, numberOfWordsLoaded := 7 } = some (true, s1) ∧ size s1 = 3 :=
  ⟨by decide,
    (size_after_load [[99, 97, 116], [100, 111, 103], [99, 97, 116]]
      { table := emptyTable, numberOfWordsLoaded := 7 } (by decide)).imp
      (fun _ h => ⟨h.1, h.2.2 (by decide)⟩)⟩

/-- C4 fails as stated: a source of `2^32` lines `a` loads successfully and `size()` then
returns 0, not `2^32`. -/
theorem size_after_load_wraps :
    (List.replicate 4294967296 [97]).length = 4294967296 ∧
    (∀ w ∈ List.replicate 4294967296 [97], isLine w) ∧
    ∃ s1, load (some (sourceOf (List.replicate 4294967296 [97])))
        { table := emptyTable, numberOfWordsLoaded := 0 } = some (true, s1) ∧
      size s1 = 0 ∧ size s1 ≠ (List.replicate 4294967296 [97]).length := by
  have hline : ∀ w ∈ List.replicate 4294967296 [97], isLine w := by
    intro w hw
    rw [List.eq_of_mem_replicate hw]
    decide
  refine ⟨List.length_replicate _ _, hline, ?_⟩
  obtain ⟨s1, hload, hholds⟩ := load_lines (List.replicate 4294967296 [97])
    { table := emptyTable, numberOfWordsLoaded := 0 } hline
  have hcount := hholds.count
  rw [List.length_replicate] at hcount
  have h0 : size s1 = 0 := by rw [size, hcount]; norm_num
  refine ⟨s1, hload, h0, ?_⟩
  rw [h0, List.length_replicate]
  decide

/-! ### `unload`, then `size` and the table -/

theorem live_single (w : List Nat) :
    Live (setHead emptyTable (bucket w) (Head.chain [nodeOf w])) := by
  intro i
  by_cases h : i = bucket w
  · exact ⟨_, by rw [h, setHead_same]⟩
  · exact ⟨[], by rw [setHead_other _ _ h]; rfl⟩

/-- C5 (as the code has it): for every dictionary state whose heads are live chains,
`unload()` returns true and `size()` afterwards returns the value the counter had before
`unload`; `unload` does not reset the counter, so the result is 0 only when the counter
was 0 already. -/
theorem size_after_unload (s : State) (hs : Live s.table) :
    ∃ s2, unload s = some (true, s2) ∧ size s2 = size s :=
  ⟨_, unload_live s hs, rfl⟩

/-- C5 at the state that holds the one word `cat` with the counter at 1. -/
theorem size_after_unload_witness :
    Live (setHead emptyTable (bucket [99, 97, 116]) (Head.chain [nodeOf [99, 97, 116]])) ∧
    ∃ s2, unload { table := setHead emptyTable (bucket [99, 97, 116])
                      (Head.chain [nodeOf [99, 97, 116]]),
                   numberOfWordsLoaded := 1 } = some (true, s2) ∧ size s2 = 1 :=
  ⟨live_single _,
    size_after_unload
      { table := setHead emptyTable (bucket [99, 97, 116]) (Head.chain [nodeOf [99, 97, 116]]),
        numberOfWordsLoaded := 1 } (live_single _)⟩

/-- C5 fails as stated: after a successful `load` of the one-line source `cat`, `unload()`
returns true and `size()` then returns 1, not 0. -/
theorem size_after_unload_not_zero :
    ∃ s1 s2, load (some (sourceOf [[99, 97, 116]]))
        { table := emptyTable, numberOfWordsLoaded := 0 } = some (true, s1) ∧
      unload s1 = some (true, s2) ∧ size s2 = 1 ∧ size s2 ≠ 0 := by
  obtain ⟨s1, hload, hholds⟩ := load_lines [[99, 97, 116]]
    { table := emptyTable, numberOfWordsLoaded := 0 } (by decide)
  have hun := unload_live s1 (live_of_allSorted hholds.sorted)
  have hsize : s1.numberOfWordsLoaded = 1 := hholds.count
  exact ⟨s1, _, hload, hun, hsize, by rw [size, hsize]; decide⟩

theorem afterFree_eq_nil {h : Head} : afterFree h = Head.chain [] ↔ h = Head.chain [] := by
  cases h with
  | freed => simp [afterFree]
  | chain c => cases c <;> simp [afterFree]

/-- C6 (as the code has it): for every dictionary state whose heads are live chains,
`unload()` returns true and releases every entry, but assigns no head: a head that was
`NULL` is still `NULL`, every other head keeps its pointer and now points at released
memory.  The counter is unchanged, and the table after `unload` is the empty table only
if it was the empty table before. -/
theorem unload_heads (s : State) (hs : Live s.table) :
    ∃ s2, unload s = some (true, s2) ∧
      (∀ i, s.table i = Head.chain [] → s2.table i = Head.chain []) ∧
      (∀ i, s.table i ≠ Head.chain [] → s2.table i = Head.freed) ∧
      s2.numberOfWordsLoaded = s.numberOfWordsLoaded ∧
      (s2.table = emptyTable ↔ s.table = emptyTable) := by
  refine ⟨_, unload_live s hs, ?_, ?_, rfl, ?_⟩
  · intro i hi
    simp only [hi, afterFree]
  · intro i hi
    obtain ⟨c, hc⟩ := hs i
    cases c with
    | nil => exact absurd hc hi
    | cons n c => simp only [hc, afterFree]
  · constructor
    · intro h
      funext i
      exact afterFree_eq_nil.1 (congrFun h i)
    · intro h
      funext i
      exact afterFree_eq_nil.2 (congrFun h i)

/-- C6 at the state that holds the one word `cat`: `unload` returns true and the head of
the bucket of `cat` is left pointing at released memory. -/
theorem unload_heads_witness :
    Live (setHead emptyTable (bucket [99, 97, 116]) (Head.chain [nodeOf [99, 97, 116]])) ∧
    ∃ s2, unload { table := setHead emptyTable (bucket [99, 97, 116])
                      (Head.chain [nodeOf [99, 97, 116]]),
                   numberOfWordsLoaded := 1 } = some (true, s2) ∧
      s2.table (bucket [99, 97, 116]) = Head.freed :=
  ⟨live_single _,
    (unload_heads
      { table := setHead emptyTable (bucket [99, 97, 116]) (Head.chain [nodeOf [99, 97, 116]]),
        numberOfWordsLoaded := 1 } (live_single _)).imp
      (fun _ h => ⟨h.1, h.2.2.1 _ (by simp [setHead_same])⟩)⟩

/-- C6 fails as stated: in the state that holds the one word `cat`, `unload()` returns
true, but the head of the bucket of `cat` is not empty afterwards and the table is not the
empty table. -/
theorem unload_leaves_head :
    ∃ s2, unload { table := setHead emptyTable (bucket [99, 97, 116])
                      (Head.chain [nodeOf [99, 97, 116]]),
                   numberOfWordsLoaded := 1 } = some (true, s2) ∧
      s2.table (bucket [99, 97, 116]) ≠ Head.chain [] ∧ s2.table ≠ emptyTable := by
  refine ⟨_, unload_live _ (live_single _), ?_, ?_⟩
  · simp [setHead_same, afterFree, nodeOf]
  · intro h
    have := congrFun h (bucket [99, 97, 116])
    simp [setHead_same, afterFree, nodeOf, emptyTable] at this

/-! ### The failure mode of `load` and its independence of the prior state -/

theorem load_some_ne_false (f : List Nat) (s s1 : State) : load (some f) s ≠ some (false, s1) := by
  intro h
  simp only [load] at h
  cases hl : loadLoop (f.length + 1) f
      { table := clearTable N s.table, numberOfWordsLoaded := 0 } with
  | none => rw [hl] at h; cases h
  | some s2 => rw [hl] at h; simp at h

theorem check_emptyTable (W : List Nat) (n : Nat) :
    check W { table := emptyTable, numberOfWordsLoaded := n } = some false := by
  simp [check, emptyTable, checkWalk]

/-- C7: `load` fails iff the source cannot be opened.  For every prior state, `load`
returns false exactly when the source does not open; in that case every chain head is
empty and the word counter is 0, so `size()` is 0 and `check` returns false for every
word.  A source that opens (any file without NUL bytes) makes `load` return true. -/
theorem load_fails_iff (src : Option (List Nat)) (s : State) :
    ((∃ s1, load src s = some (false, s1)) ↔ src = none) ∧
    (∃ s1, load none s = some (false, s1) ∧ (∀ i, s1.table i = Head.chain []) ∧
      s1.numberOfWordsLoaded = 0 ∧ size s1 = 0 ∧ ∀ W, check W s1 = some false) ∧
    (∀ f, (∀ c ∈ f, c ≠ 0) → ∃ s1, load (some f) s = some (true, s1)) := by
  refine ⟨⟨?_, ?_⟩, ?_, ?_⟩
  · rintro ⟨s1, h⟩
    cases src with
    | none => rfl
    | some f => exact absurd h (load_some_ne_false f s s1)
  · rintro rfl
    exact ⟨_, load_none s⟩
  · exact ⟨_, load_none s, fun _ => rfl, rfl, rfl, fun W => check_emptyTable W 0⟩
  · intro f hf
    exact (load_total f s hf).imp (fun _ h => h.1)

/-- C8: `load` does not depend on the prior state.  For every two dictionary states and
every source (one that does not open, or the bytes of a file), `load` from the one and
`load` from the other give the same result: the same status, table and word counter. -/
theorem load_independent (src : Option (List Nat)) (s1 s2 : State) :
    load src s1 = load src s2 := by
  unfold load
  simp only [clearTable_N]

/-! ### The length-ordering invariant -/

theorem putWords_sorted : ∀ (ws : List (List Nat)) (s : State),
    (∀ w ∈ ws, w ≠ [] ∧ w.length ≤ LENGTH) → AllSorted s.table →
    ∃ s1, putWords ws s = some s1 ∧ AllSorted s1.table
  | [], s, _, hs => ⟨s, rfl, hs⟩
  | w :: ws, s, hws, hs => by
    obtain ⟨s1, hput, hs1, _⟩ :=
      putWordInTable_sorted w s (hws w (List.mem_cons_self _ _)).2 hs
    obtain ⟨s2, hrest, hs2⟩ :=
      putWords_sorted ws s1 (fun x hx => hws x (List.mem_cons_of_mem _ hx)) hs1
    exact ⟨s2, by simp only [putWords, hput, hrest], hs2⟩

/-- C9: the length-ordering invariant.  If every chain of the table is sorted by
non-decreasing cached word length, then `putWordInTable(w)`, for any non-empty word `w` of
at most `LENGTH` characters, returns a table in which every chain is still sorted; hence
every chain is sorted after any sequence of such inserts starting from the empty table,
and after any successful `load` (of any file without NUL bytes, from any prior state). -/
theorem length_order_invariant :
    (∀ (w : List Nat) (s : State), w ≠ [] → w.length ≤ LENGTH → AllSorted s.table →
      ∃ s1, putWordInTable w s = some s1 ∧ AllSorted s1.table) ∧
    (∀ (ws : List (List Nat)) (n : Nat), (∀ w ∈ ws, w ≠ [] ∧ w.length ≤ LENGTH) →
      ∃ s1, putWords ws { table := emptyTable, numberOfWordsLoaded := n } = some s1 ∧
        AllSorted s1.table) ∧
    (∀ (f : List Nat) (s : State), (∀ c ∈ f, c ≠ 0) →
      ∃ s1, load (some f) s = some (true, s1) ∧ AllSorted s1.table) :=
  ⟨fun w s _ hlen hs => (putWordInTable_sorted w s hlen hs).imp (fun _ h => ⟨h.1, h.2.1⟩),
    fun ws _ hws => putWords_sorted ws _ hws allSorted_empty,
    fun f s hf => load_total f s hf⟩

/-- C9 at the words `krup`, `bo`, `aaaduy`, `nc`, `lqup` (lengths 4, 2, 6, 2, 4), which
all hash to bucket 1373: inserted in this order into the empty table they leave every chain
sorted, and the chain of bucket 1373 has the cached lengths 2, 2, 4, 4, 6. -/
theorem length_order_invariant_witness :
    (∀ w ∈ [[107, 114, 117, 112], [98, 111], [97, 97, 97, 100, 117, 121], [110, 99],
        [108, 113, 117, 112]], hash w = 1373) ∧
    (∃ s1, putWords [[107, 114, 117, 112], [98, 111], [97, 97, 97, 100, 117, 121], [110, 99],
        [108, 113, 117, 112]] { table := emptyTable, numberOfWordsLoaded := 0 } = some s1 ∧
      AllSorted s1.table) ∧
    (putWords [[107, 114, 117, 112], [98, 111], [97, 97, 97, 100, 117, 121], [110, 99],
        [108, 113, 117, 112]] { table := emptyTable, numberOfWordsLoaded := 0 }).map
      (fun s1 => s1.table (bucket [98, 111]))
      = some (Head.chain [nodeOf [110, 99], nodeOf [98, 111], nodeOf [108, 113, 117, 112],
          nodeOf [107, 114, 117, 112], nodeOf [97, 97, 97, 100, 117, 121]]) :=
  ⟨by decide,
    length_order_invariant.2.1 _ 0 (by decide),
    by decide⟩

/-! ### Where the new entry goes -/

theorem spliceWalk_split (L : Nat) (new : node) : ∀ c : List node,
    ∃ pre post, c = pre ++ post ∧ spliceWalk L new c = pre ++ new :: post ∧
      (∀ n ∈ pre, n.wordLength < L) ∧ (∀ n, post.head? = some n → L ≤ n.wordLength)
  | [] => ⟨[], [], rfl, rfl, by simp, by simp⟩
  | tmp :: next => by
    by_cases h : L > tmp.wordLength
    · obtain ⟨pre, post, hc, hs, hpre, hpost⟩ := spliceWalk_split L new next
      refine ⟨tmp :: pre, post, by simp [hc], by simp [spliceWalk, h, hs], ?_, hpost⟩
      intro n hn
      rcases List.mem_cons.1 hn with rfl | hn
      · exact h
      · exact hpre n hn
    · refine ⟨[], tmp :: next, rfl, by simp [spliceWalk, h], by simp, ?_⟩
      intro n hn
      simp only [List.head?_cons, Option.some.injEq] at hn
      subst hn
      omega

theorem putInChain_split (L : Nat) (new : node) (c : List node) :
    ∃ pre post, c = pre ++ post ∧ putInChain L new c = pre ++ new :: post ∧
      (∀ n ∈ pre, n.wordLength < L) ∧ (∀ n, post.head? = some n → L ≤ n.wordLength) := by
  cases c with
  | nil => exact ⟨[], [], rfl, rfl, by simp, by simp⟩
  | cons tmp next =>
    by_cases h : L ≤ tmp.wordLength
    · refine ⟨[], tmp :: next, rfl, by simp [putInChain, h], by simp, ?_⟩
      intro n hn
      simp only [List.head?_cons, Option.some.injEq] at hn
      subst hn
      exact h
    · simp only [putInChain, h, if_false]
      exact spliceWalk_split L new (tmp :: next)

/-- C10: the insert position.  For every chain `c` of the bucket of a word `w` of length
`L` (at most `LENGTH`), `putWordInTable(w)` leaves in that bucket the chain in which the new
entry is the sole element if `c` was empty, the new head if `L` is at most the head's
length, and in every case sits right after the maximal run `pre` of leading entries whose
length is strictly less than `L`: right before the first entry of length at least `L`, or
at the end if there is none. -/
theorem insert_position (w : List Nat) (s : State) (c : List node)
    (hlen : w.length ≤ LENGTH) (hc : s.table (bucket w) = Head.chain c) :
    ∃ s1 c1, putWordInTable w s = some s1 ∧ s1.table (bucket w) = Head.chain c1 ∧
      (c = [] → c1 = [nodeOf w]) ∧
      (∀ tmp next, c = tmp :: next → w.length ≤ tmp.wordLength → c1 = nodeOf w :: c) ∧
      (∃ pre post, c = pre ++ post ∧ c1 = pre ++ nodeOf w :: post ∧
        (∀ n ∈ pre, n.wordLength < w.length) ∧
        (∀ n, post.head? = some n → w.length ≤ n.wordLength)) ∧
      c1 = c.takeWhile (fun n => decide (n.wordLength < w.length))
            ++ nodeOf w :: c.dropWhile (fun n => decide (n.wordLength < w.length)) := by
  refine ⟨_, putInChain w.length (nodeOf w) c, putWordInTable_live w s c hlen hc,
    setHead_same _ _ _, ?_, ?_, putInChain_split _ _ c, putInChain_eq _ _ c⟩
  · rintro rfl
    rfl
  · rintro tmp next rfl hle
    simp [putInChain, hle]

/-- C10 at the word `krup` (length 4) put into bucket 1373 when its chain holds `bo`,
`lqup` and `aaaduy` (lengths 2, 4 and 6): the new entry sits after the entry of length 2
and before the older entry of length 4. -/
theorem insert_position_witness :
    ∃ s1 c1,
      putWordInTable [107, 114, 117, 112]
        { table := setHead emptyTable (bucket [107, 114, 117, 112])
            (Head.chain [nodeOf [98, 111], nodeOf [108, 113, 117, 112],
              nodeOf [97, 97, 97, 100, 117, 121]]),
          numberOfWordsLoaded := 3 } = some s1 ∧
      s1.table (bucket [107, 114, 117, 112]) = Head.chain c1 ∧
      c1 = [nodeOf [98, 111], nodeOf [107, 114, 117, 112], nodeOf [108, 113, 117, 112],
              nodeOf [97, 97, 97, 100, 117, 121]] := by
  obtain ⟨s1, c1, h1, h2, _, _, _, h3⟩ := insert_position [107, 114, 117, 112]
    { table := setHead emptyTable (bucket [107, 114, 117, 112])
        (Head.chain [nodeOf [98, 111], nodeOf [108, 113, 117, 112],
          nodeOf [97, 97, 97, 100, 117, 121]]),
      numberOfWordsLoaded := 3 }
    [nodeOf [98, 111], nodeOf [108, 113, 117, 112], nodeOf [97, 97, 97, 100, 117, 121]]
    (by decide) (by simp only [setHead_same])
  exact ⟨s1, c1, h1, h2, h3.trans (by decide)⟩

/-! ### Ties among equal lengths -/

theorem split_eq_takeWhile (p : node → Bool) : ∀ (pre post : List node),
    (∀ n ∈ pre, p n = true) → (∀ n, post.head? = some n → p n = false) →
    (pre ++ post).takeWhile p = pre ∧ (pre ++ post).dropWhile p = post
  | [], [], _, _ => ⟨rfl, rfl⟩
  | [], n :: post, _, hpost => by
    have hn : p n = false := hpost n rfl
    simp [List.takeWhile_cons, List.dropWhile_cons, hn]
  | n :: pre, post, hpre, hpost => by
    have hn : p n = true := hpre n (List.mem_cons_self _ _)
    obtain ⟨h1, h2⟩ := split_eq_takeWhile p pre post
      (fun x hx => hpre x (List.mem_cons_of_mem _ hx)) hpost
    simp [List.takeWhile_cons, List.dropWhile_cons, hn, h1, h2]

/-- C11 (as the code has it): when a word of length `L` (at most `LENGTH`) is put into a
bucket whose chain is `c`, the new entry is placed immediately after the leading entries
that are strictly shorter than `L`: the chain becomes `pre ++ entry :: post`, where `pre` is
the whole leading run of entries shorter than `L` (the longest such run: `post` is empty or
starts with an entry of length at least `L`) and `post` is the rest of `c`.  So no entry of
length `L` precedes the new one and every existing entry of length `L` lies after it,
whether `L` ties the length of the head (then `pre` is empty and the new entry is the head)
or of entries deeper in the chain. -/
theorem tie_break (w : List Nat) (s : State) (c : List node)
    (hlen : w.length ≤ LENGTH) (hc : s.table (bucket w) = Head.chain c) :
    ∃ s1 pre post, putWordInTable w s = some s1 ∧ c = pre ++ post ∧
      s1.table (bucket w) = Head.chain (pre ++ nodeOf w :: post) ∧
      pre = c.takeWhile (fun n => decide (n.wordLength < w.length)) ∧
      post = c.dropWhile (fun n => decide (n.wordLength < w.length)) ∧
      (∀ n ∈ pre, n.wordLength < w.length) ∧
      (∀ n, post.head? = some n → w.length ≤ n.wordLength) ∧
      (∀ n ∈ c, n.wordLength = w.length → n ∈ post) ∧
      (∀ tmp next, c = tmp :: next → tmp.wordLength = w.length → pre = []) := by
  obtain ⟨pre, post, hsplit, hput, hpre, hpost⟩ := putInChain_split w.length (nodeOf w) c
  obtain ⟨htake, hdrop⟩ := split_eq_takeWhile (fun n => decide (n.wordLength < w.length))
    pre post (fun n hn => decide_eq_true (hpre n hn))
    (fun n hn => decide_eq_false (Nat.not_lt.2 (hpost n hn)))
  refine ⟨_, pre, post, putWordInTable_live w s c hlen hc, hsplit, ?_, ?_, ?_, hpre, hpost,
    ?_, ?_⟩
  · rw [← hput]
    exact setHead_same _ _ _
  · rw [hsplit, htake]
  · rw [hsplit, hdrop]
  · intro n hn hL
    rw [hsplit] at hn
    rcases List.mem_append.1 hn with h | h
    · exact absurd hL (Nat.ne_of_lt (hpre n h))
    · exact h
  · intro tmp next hcons heq
    cases pre with
    | nil => rfl
    | cons n pre =>
      rw [hcons] at hsplit
      simp only [List.cons_append, List.cons.injEq] at hsplit
      have := hpre n (List.mem_cons_self _ _)
      rw [← hsplit.1] at this
      omega

/-- C11 at the word `krup` (length 4) put into bucket 1373 when its chain holds `bo`, `lqup`
and `aaaduy` (lengths 2, 4, 6): the chain becomes `bo`, `krup`, `lqup`, `aaaduy`, the new
entry right after the one shorter entry and before the older entry of length 4. -/
theorem tie_break_witness :
    ∃ s1,
      putWordInTable [107, 114, 117, 112]
        { table := setHead emptyTable (bucket [107, 114, 117, 112])
            (Head.chain [nodeOf [98, 111], nodeOf [108, 113, 117, 112],
              nodeOf [97, 97, 97, 100, 117, 121]]),
          numberOfWordsLoaded := 3 } = some s1 ∧
      s1.table (bucket [107, 114, 117, 112])
        = Head.chain ([nodeOf [98, 111]] ++ nodeOf [107, 114, 117, 112] ::
            [nodeOf [108, 113, 117, 112], nodeOf [97, 97, 97, 100, 117, 121]]) := by
  obtain ⟨s1, pre, post, h1, _, h3, h4, h5, _⟩ := tie_break [107, 114, 117, 112]
    { table := setHead emptyTable (bucket [107, 114, 117, 112])
        (Head.chain [nodeOf [98, 111], nodeOf [108, 113, 117, 112],
          nodeOf [97, 97, 97, 100, 117, 121]]),
      numberOfWordsLoaded := 3 }
    [nodeOf [98, 111], nodeOf [108, 113, 117, 112], nodeOf [97, 97, 97, 100, 117, 121]]
    (by decide) (by simp only [setHead_same])
  have hpre : pre = [nodeOf [98, 111]] := h4.trans (by decide)
  have hpost : post = [nodeOf [108, 113, 117, 112], nodeOf [97, 97, 97, 100, 117, 121]] :=
    h5.trans (by decide)
  rw [hpre, hpost] at h3
  exact ⟨s1, h1, h3⟩

/-- C11 fails as stated: `krup` (length 4) is put into a chain whose head `bo` is shorter
and which holds the older entry `lqup` of length 4 deeper in the chain.  The chain becomes
`bo`, `krup`, `lqup`, `aaaduy`: the new entry is before the older entry of equal length, and
the chain cannot be split so that every old entry of length 4 precedes the new one. -/
theorem tie_break_newest_first :
    (putWordInTable [107, 114, 117, 112]
        { table := setHead emptyTable (bucket [107, 114, 117, 112])
            (Head.chain [nodeOf [98, 111], nodeOf [108, 113, 117, 112],
              nodeOf [97, 97, 97, 100, 117, 121]]),
          numberOfWordsLoaded := 3 }).map (fun s1 => s1.table (bucket [107, 114, 117, 112]))
      = some (Head.chain [nodeOf [98, 111], nodeOf [107, 114, 117, 112],
          nodeOf [108, 113, 117, 112], nodeOf [97, 97, 97, 100, 117, 121]]) ∧
    ¬ ∃ pre post,
        [nodeOf [98, 111], nodeOf [108, 113, 117, 112], nodeOf [97, 97, 97, 100, 117, 121]]
          = pre ++ post ∧
        [nodeOf [98, 111], nodeOf [107, 114, 117, 112], nodeOf [108, 113, 117, 112],
          nodeOf [97, 97, 97, 100, 117, 121]] = pre ++ nodeOf [107, 114, 117, 112] :: post ∧
        ∀ n ∈ post, n.wordLength ≠ 4 := by
  refine ⟨by decide, ?_⟩
  rintro ⟨pre, post, h1, h2, h3⟩
  have hmem : nodeOf [108, 113, 117, 112] ∈ post := by
    rcases pre with _ | ⟨a, _ | ⟨b, pre⟩⟩
    · simp [nodeOf] at h2
    · simp only [List.singleton_append, List.cons.injEq] at h2
      rw [← h2.2.2]
      simp
    · simp only [List.cons_append, List.cons.injEq] at h2
      have h4 := h2.2.1
      simp only [List.cons_append, List.cons.injEq] at h1
      rw [← h1.2.1] at h4
      simp [nodeOf] at h4
  exact h3 _ hmem rfl

/-! ### The range and the case-insensitivity of `hash` -/

theorem tolower_eq_lowercase (c : Nat) : tolower c = lowercase c := rfl

theorem tolower_tolower (c : Nat) : tolower (tolower c) = tolower c := by
  unfold tolower
  split_ifs <;> omega

theorem map_tolower_map_lowercase (w : List Nat) :
    (w.map lowercase).map tolower = w.map tolower := by
  simp only [List.map_map]
  apply List.map_congr_left
  intro c _
  simp only [Function.comp, ← tolower_eq_lowercase, tolower_tolower]

/-- C12: for every non-empty word, `hash(word)` is a valid bucket index, `0 <= hash(word) < N`
with `N = 104729`; it is the index at which `check` and `putWordInTable` read the table. -/
theorem hash_in_range (word : List Nat) (hne : word ≠ []) :
    0 ≤ hash word ∧ hash word < N ∧ N = 104729 ∧ (bucket word).val = hash word :=
  ⟨Nat.zero_le _, Nat.mod_lt _ (by decide), rfl, rfl⟩

/-- C12 at the word `cat`, whose hash is 17603. -/
theorem hash_in_range_witness :
    hash [99, 97, 116] = 17603 ∧
    0 ≤ hash [99, 97, 116] ∧ hash [99, 97, 116] < N ∧ N = 104729 ∧
      (bucket [99, 97, 116]).val = hash [99, 97, 116] :=
  ⟨by decide, hash_in_range [99, 97, 116] (by decide)⟩

/-- C13: `hash` is case-insensitive.  For every non-empty ASCII word `w`,
`hash(w) = hash(lowercase(w))`; hence two words that differ only in ASCII letter case have
the same hash and the same bucket. -/
theorem hash_case_insensitive (w : List Nat) (hne : w ≠ []) (hascii : ∀ c ∈ w, 0 < c ∧ c < 128) :
    hash w = hash (w.map lowercase) ∧
    ∀ w1, sameUpToCase w w1 → hash w = hash w1 ∧ bucket w = bucket w1 :=
  ⟨hash_congr (map_tolower_map_lowercase w).symm,
    fun w1 h => ⟨hash_congr ((sameUpToCase_iff_map w w1).1 h),
      bucket_congr ((sameUpToCase_iff_map w w1).1 h)⟩⟩

/-- C13 at `Hello`: it hashes like `hello` and like `HELLO`. -/
theorem hash_case_insensitive_witness :
    hash [72, 101, 108, 108, 111] = hash [104, 101, 108, 108, 111] ∧
    hash [72, 101, 108, 108, 111] = hash [72, 69, 76, 76, 79] :=
  ⟨(hash_case_insensitive [72, 101, 108, 108, 111] (by decide) (by decide)).1,
    ((hash_case_insensitive [72, 101, 108, 108, 111] (by decide) (by decide)).2
      [72, 69, 76, 76, 79] (by decide)).1⟩

/-! ### `hash` against the recurrence of the specification -/

theorem lowercase_letter_le {c : Nat} (h : isLetter c) : lowercase c ≤ 122 := by
  unfold isLetter at h
  unfold lowercase
  split_ifs <;> omega

theorem hashLoop_eq_wrap : ∀ (rest : List Nat) (v i : Nat), (∀ c ∈ rest, isLetter c) →
    hashLoop v i rest = wrapRecurrence v i rest
  | [], _, _, _ => rfl
  | ch :: rest, v, i, h => by
    have hch := lowercase_letter_le (h ch (List.mem_cons_self _ _))
    have hmod : tolower ch % 256 = lowercase ch := by
      rw [tolower_eq_lowercase]
      exact Nat.mod_eq_of_lt (by omega)
    simp only [hashLoop, wrapRecurrence, hmod]
    exact hashLoop_eq_wrap rest _ _ (fun c hc => h c (List.mem_cons_of_mem _ hc))

theorem pow_bound (i : Nat) (hi : 1 ≤ i) : 128 * i ≤ 2 ^ (4 * i + 3) := by
  induction i, hi using Nat.le_induction with
  | base => norm_num
  | succ n hn ih =>
    have h : 2 ^ (4 * (n + 1) + 3) = 16 * 2 ^ (4 * n + 3) := by
      rw [show 4 * (n + 1) + 3 = (4 * n + 3) + 4 by ring, pow_add]
      norm_num [Nat.mul_comm]
    omega

theorem wrapRecurrence_eq_spec : ∀ (rest : List Nat) (v i : Nat), (∀ c ∈ rest, isLetter c) →
    1 ≤ i → v < 2 ^ (4 * i + 3) → i + rest.length ≤ 14 →
    wrapRecurrence v i rest = specRecurrence v i rest
  | [], _, _, _, _, _, _ => rfl
  | ch :: rest, v, i, h, hi, hv, hlen => by
    have hch := lowercase_letter_le (h ch (List.mem_cons_self _ _))
    have hi13 : i ≤ 13 := by simp only [List.length_cons] at hlen; omega
    have hP1 := pow_bound i hi
    have hP2 : 2 ^ (4 * i + 3) ≤ 2 ^ 55 :=
      Nat.pow_le_pow_right (by norm_num) (by omega)
    have hP3 : 2 ^ (4 * (i + 1) + 3) = 16 * 2 ^ (4 * i + 3) := by
      rw [show 4 * (i + 1) + 3 = (4 * i + 3) + 4 by ring, pow_add]
      norm_num [Nat.mul_comm]
    have hX : (v + i) * lowercase ch ≤ (v + i) * 122 := Nat.mul_le_mul_left _ hch
    have h55 : (2 : Nat) ^ 55 = 36028797018963968 := by norm_num
    have h64 : (2 : Nat) ^ 64 = 18446744073709551616 := by norm_num
    have hlt : (v + i) * lowercase ch < 2 ^ 64 := by omega
    have hv1 : (v + i) * lowercase ch / 8 < 2 ^ (4 * (i + 1) + 3) := by
      rw [hP3]
      omega
    simp only [wrapRecurrence, specRecurrence, Nat.mod_eq_of_lt hlt]
    exact wrapRecurrence_eq_spec rest _ (i + 1)
      (fun c hc => h c (List.mem_cons_of_mem _ hc)) (by omega) hv1
      (by simp only [List.length_cons] at hlen; omega)

/-- C14 (as the code has it): for every non-empty word `w` of at most `LENGTH` ASCII
letters, `hash(w)` is the value of the recurrence with every product
`(v_{i-1} + i) * lowercase(w[i])` reduced modulo `2^64` (the `unsigned long` arithmetic of
the code) before the division by 8, taken modulo `N`.  It equals the recurrence in exact
integer arithmetic for every word of at most 14 letters. -/
theorem hash_recurrence (w : List Nat) (hw : isWord w) :
    hash w = wrapHash w ∧ (w.length ≤ 14 → hash w = specHash w) := by
  obtain ⟨hne, _, hletters⟩ := hw
  cases w with
  | nil => exact absurd rfl hne
  | cons c0 rest =>
    have hc0 := lowercase_letter_le (hletters c0 (List.mem_cons_self _ _))
    have hrest : ∀ c ∈ rest, isLetter c := fun c hc => hletters c (List.mem_cons_of_mem _ hc)
    have hseed : tolower c0 % 2 ^ 64 = lowercase c0 := by
      rw [tolower_eq_lowercase]
      exact Nat.mod_eq_of_lt (by omega)
    have h1 : hash (c0 :: rest) = wrapHash (c0 :: rest) := by
      simp only [hash, wrapHash, List.headD_cons, List.tail_cons, hseed,
        hashLoop_eq_wrap rest _ _ hrest]
    refine ⟨h1, fun hlen => ?_⟩
    rw [h1]
    simp only [wrapHash, specHash, List.headD_cons, List.tail_cons]
    rw [wrapRecurrence_eq_spec rest _ 1 hrest (Nat.le_refl _) (by norm_num; omega)
      (by simp only [List.length_cons] at hlen; omega)]

/-- C14 at the word `elephant` (8 letters): the code, the recurrence modulo `2^64` and the
exact recurrence give the same value. -/
theorem hash_recurrence_witness :
    isWord [101, 108, 101, 112, 104, 97, 110, 116] ∧
    hash [101, 108, 101, 112, 104, 97, 110, 116]
      = wrapHash [101, 108, 101, 112, 104, 97, 110, 116] ∧
    hash [101, 108, 101, 112, 104, 97, 110, 116]
      = specHash [101, 108, 101, 112, 104, 97, 110, 116] :=
  ⟨by decide,
    (hash_recurrence [101, 108, 101, 112, 104, 97, 110, 116] (by decide)).1,
    (hash_recurrence [101, 108, 101, 112, 104, 97, 110, 116] (by decide)).2 (by decide)⟩

/-- C14 fails as stated: for the 16-letter word `responsibilities` the code returns 15093
while the recurrence in exact integer arithmetic gives 99730; for the word of 15 letters
`z` the code returns 48965 and the exact recurrence 43942. -/
theorem hash_wraps :
    isWord [114, 101, 115, 112, 111, 110, 115, 105, 98, 105, 108, 105, 116, 105, 101, 115] ∧
    hash [114, 101, 115, 112, 111, 110, 115, 105, 98, 105, 108, 105, 116, 105, 101, 115]
      = 15093 ∧
    specHash [114, 101, 115, 112, 111, 110, 115, 105, 98, 105, 108, 105, 116, 105, 101, 115]
      = 99730 ∧
    hash [122, 122, 122, 122, 122, 122, 122, 122, 122, 122, 122, 122, 122, 122, 122] = 48965 ∧
    specHash [122, 122, 122, 122, 122, 122, 122, 122, 122, 122, 122, 122, 122, 122, 122]
      = 43942 := by
  refine ⟨by decide, by decide, by decide, by decide, by decide⟩

/-! ### The early exit of `check` against a full scan -/

theorem checkWalk_iff (q : List Nat) (L : Nat) (c : List node)
    (hs : (lengths c).Sorted (fun a b => a ≤ b)) :
    checkWalk q L c = true ↔ ∃ n ∈ c, n.wordLength = L ∧ wordcmp n.word q L = true :=
  ⟨checkWalk_sound q L c, checkWalk_complete q L c hs⟩

theorem checkWalk_eq_fullScan (word : List Nat) (c : List node)
    (hsorted : (lengths c).Sorted (fun a b => a ≤ b))
    (hcached : ∀ n ∈ c, n.wordLength = n.word.length) (hlen : word.length ≤ LENGTH) :
    checkWalk word (word.length % 256) c = fullScan word c := by
  have hlen2 : word.length ≤ 45 := hlen
  have hmod : word.length % 256 = word.length := Nat.mod_eq_of_lt (by omega)
  rw [hmod, Bool.eq_iff_iff, checkWalk_iff word _ c hsorted]
  unfold fullScan
  simp only [List.any_eq_true, decide_eq_true_eq]
  constructor
  · rintro ⟨n, hn, hl, hcmp⟩
    have hl2 : n.word.length = word.length := by rw [← hcached n hn, hl]
    exact ⟨n, hn, hl2, (sameUpToCase_iff_map _ _).2 (map_tolower_of_wordcmp hl2 rfl hcmp)⟩
  · rintro ⟨n, hn, hl, hcase⟩
    exact ⟨n, hn, by rw [hcached n hn, hl],
      wordcmp_of_map_tolower ((sameUpToCase_iff_map _ _).1 hcase) _⟩

/-- C15: the early exit never changes the answer.  For every chain sorted by non-decreasing
cached length in which each cached length is the length of its word, and every query word
of length at most `LENGTH`, the walk of `check`, which returns false at the first entry
longer than the query, gives the result of a full scan that tests every entry for equal
length and case-insensitive equality; so does `check` in a state whose bucket holds the
chain. -/
theorem early_exit_is_full_scan (word : List Nat) (c : List node)
    (hsorted : (lengths c).Sorted (fun a b => a ≤ b))
    (hcached : ∀ n ∈ c, n.wordLength = n.word.length) (hlen : word.length ≤ LENGTH) :
    checkWalk word (word.length % 256) c = fullScan word c ∧
    ∀ s : State, s.table (bucket word) = Head.chain c → check word s = some (fullScan word c) := by
  have h := checkWalk_eq_fullScan word c hsorted hcached hlen
  refine ⟨h, fun s hs => ?_⟩
  simp only [check, hs, h]

/-- C15 at the query `nc` on the chain `bo`, `nc`, `lqup`, `krup`, `aaaduy` and at the query
`dog` on the same chain: walk and full scan are both true, respectively both false. -/
theorem early_exit_is_full_scan_witness :
    (checkWalk [110, 99] 2
        [nodeOf [98, 111], nodeOf [110, 99], nodeOf [108, 113, 117, 112],
          nodeOf [107, 114, 117, 112], nodeOf [97, 97, 97, 100, 117, 121]] = true ∧
      fullScan [110, 99]
        [nodeOf [98, 111], nodeOf [110, 99], nodeOf [108, 113, 117, 112],
          nodeOf [107, 114, 117, 112], nodeOf [97, 97, 97, 100, 117, 121]] = true) ∧
    (checkWalk [100, 111, 103] 3
        [nodeOf [98, 111], nodeOf [110, 99], nodeOf [108, 113, 117, 112],
          nodeOf [107, 114, 117, 112], nodeOf [97, 97, 97, 100, 117, 121]] = false ∧
      fullScan [100, 111, 103]
        [nodeOf [98, 111], nodeOf [110, 99], nodeOf [108, 113, 117, 112],
          nodeOf [107, 114, 117, 112], nodeOf [97, 97, 97, 100, 117, 121]] = false) :=
  ⟨⟨by decide,
      ((early_exit_is_full_scan [110, 99]
        [nodeOf [98, 111], nodeOf [110, 99], nodeOf [108, 113, 117, 112],
          nodeOf [107, 114, 117, 112], nodeOf [97, 97, 97, 100, 117, 121]]
        (by decide) (by decide) (by decide)).1).symm.trans (by decide)⟩,
    ⟨by decide,
      ((early_exit_is_full_scan [100, 111, 103]
        [nodeOf [98, 111], nodeOf [110, 99], nodeOf [108, 113, 117, 112],
          nodeOf [107, 114, 117, 112], nodeOf [97, 97, 97, 100, 117, 121]]
        (by decide) (by decide) (by decide)).1).symm.trans (by decide)⟩⟩

/-! ### `wordcmp` -/

theorem charAt_get {a : List Nat} {i : Nat} (h : i < a.length) : charAt a i = a.get ⟨i, h⟩ := by
  rw [charAt_of_lt h]
  rfl

/-- C16: `wordcmp(a, b, n)` returns true iff for every `i < n` the bytes `a[i]` and `b[i]`
are equal after ASCII lower-casing, for all strings with at least `n` bytes;
`wordcmp("Hello", "hellO", 5)` is true and `wordcmp("Bello", "hellO", 5)` is false; for a
fixed `n` it is reflexive, symmetric and transitive. -/
theorem wordcmp_spec :
    (∀ (a b : List Nat) (n : Nat) (ha : n ≤ a.length) (hb : n ≤ b.length),
      wordcmp a b n = true ↔
        ∀ (i : Nat) (hi : i < n),
          lowercase (a.get ⟨i, Nat.lt_of_lt_of_le hi ha⟩)
            = lowercase (b.get ⟨i, Nat.lt_of_lt_of_le hi hb⟩)) ∧
    wordcmp [72, 101, 108, 108, 111] [104, 101, 108, 108, 79] 5 = true ∧
    wordcmp [66, 101, 108, 108, 111] [104, 101, 108, 108, 79] 5 = false ∧
    (∀ (a : List Nat) (n : Nat), wordcmp a a n = true) ∧
    (∀ (a b : List Nat) (n : Nat), wordcmp a b n = true → wordcmp b a n = true) ∧
    (∀ (a b c : List Nat) (n : Nat),
      wordcmp a b n = true → wordcmp b c n = true → wordcmp a c n = true) := by
  refine ⟨?_, by decide, by decide, ?_, ?_, ?_⟩
  · intro a b n ha hb
    rw [wordcmp_iff]
    constructor
    · intro h i hi
      have := h i hi
      rwa [charAt_get (Nat.lt_of_lt_of_le hi ha), charAt_get (Nat.lt_of_lt_of_le hi hb)] at this
    · intro h i hi
      rw [charAt_get (Nat.lt_of_lt_of_le hi ha), charAt_get (Nat.lt_of_lt_of_le hi hb)]
      exact h i hi
  · intro a n
    rw [wordcmp_iff]
    exact fun _ _ => rfl
  · intro a b n h
    rw [wordcmp_iff] at h ⊢
    exact fun i hi => (h i hi).symm
  · intro a b c n h1 h2
    rw [wordcmp_iff] at h1 h2 ⊢
    exact fun i hi => (h1 i hi).trans (h2 i hi)

/-! ### The last line of a source -/

/-- C17, the code at the source `cat`, `dog`, `elephant` whose last line has no newline:
`load` returns true and counts 3 words, but the last word is stored without its last
letter, as `elephan`: `check("elephant")` is false and `check("elephan")` is true. -/
theorem load_last_line_without_newline :
    (load (some [99, 97, 116, 10, 100, 111, 103, 10, 101, 108, 101, 112, 104, 97, 110, 116])
        { table := emptyTable, numberOfWordsLoaded := 0 }).map
      (fun r => (r.1, size r.2, check [101, 108, 101, 112, 104, 97, 110, 116] r.2,
        check [101, 108, 101, 112, 104, 97, 110] r.2,
        r.2.table (bucket [101, 108, 101, 112, 104, 97, 110])))
      = some (true, 3, some false, some true,
          Head.chain [{ word := [101, 108, 101, 112, 104, 97, 110], wordLength := 7 }]) := by
  simp only [load, clearTable_N]
  decide

/-- C2, the code at the source `cat`, `dog`, `elephant` whose last line has no newline
(the defect shown for C17): `load` returns true, and in the state it produces
`check("elephan")` returns true for a query of 7 characters although no word of the source
equals `elephan` up to ASCII letter case. -/
theorem check_true_without_source_word :
    [99, 97, 116, 10, 100, 111, 103, 10, 101, 108, 101, 112, 104, 97, 110, 116]
      = [99, 97, 116] ++ 10 :: ([100, 111, 103] ++ 10 :: [101, 108, 101, 112, 104, 97, 110, 116]) ∧
    (load (some [99, 97, 116, 10, 100, 111, 103, 10, 101, 108, 101, 112, 104, 97, 110, 116])
        { table := emptyTable, numberOfWordsLoaded := 0 }).map
      (fun r => (r.1, check [101, 108, 101, 112, 104, 97, 110] r.2)) = some (true, some true) ∧
    [101, 108, 101, 112, 104, 97, 110].length ≤ LENGTH ∧
    ∀ w ∈ [[99, 97, 116], [100, 111, 103], [101, 108, 101, 112, 104, 97, 110, 116]],
      ¬ sameUpToCase w [101, 108, 101, 112, 104, 97, 110] := by
  refine ⟨by decide, ?_, by decide, by decide⟩
  simp only [load, clearTable_N]
  decide

/-! ### The frame of an insert -/

/-- C18: the frame of an insert.  For every table whose bucket `hash(w)` holds a chain `c`
and every non-empty word `w` of at most `LENGTH` characters, `putWordInTable(w)` changes
only bucket `hash(w)`: every other head is unchanged, the word counter is untouched, and
the new chain is `pre ++ entry(w) :: post` where `pre ++ post` is the old chain, so exactly
one entry for `w` is added and all previous entries are kept, unmodified and in their
previous relative order. -/
theorem insert_frame (w : List Nat) (s : State) (c : List node) (hne : w ≠ [])
    (hlen : w.length ≤ LENGTH) (hc : s.table (bucket w) = Head.chain c) :
    ∃ s1 c1, putWordInTable w s = some s1 ∧
      (bucket w).val = hash w ∧
      (∀ i, i ≠ bucket w → s1.table i = s.table i) ∧
      s1.numberOfWordsLoaded = s.numberOfWordsLoaded ∧
      s1.table (bucket w) = Head.chain c1 ∧
      (∃ pre post, c = pre ++ post ∧ c1 = pre ++ nodeOf w :: post) ∧
      c1.length = c.length + 1 ∧ c.Sublist c1 ∧ c1.Perm (nodeOf w :: c) ∧
      (nodeOf w).word = w ∧ (nodeOf w).wordLength = w.length := by
  obtain ⟨pre, post, hsplit, hput, _, _⟩ := putInChain_split w.length (nodeOf w) c
  refine ⟨_, putInChain w.length (nodeOf w) c, putWordInTable_live w s c hlen hc, rfl,
    fun i hi => setHead_other _ _ hi, rfl, setHead_same _ _ _, ⟨pre, post, hsplit, hput⟩,
    ?_, ?_, putInChain_perm _ _ c, rfl, rfl⟩
  · rw [(putInChain_perm _ _ c).length_eq, List.length_cons]
  · rw [hput, hsplit]
    exact List.Sublist.append (List.Sublist.refl pre) (List.sublist_cons_self _ post)

/-- C18 at the word `krup` put into bucket 1373 when its chain holds `bo`, `lqup` and
`aaaduy`: the bucket of `cat` is untouched and the counter is still 3. -/
theorem insert_frame_witness :
    ∃ s1 c1,
      putWordInTable [107, 114, 117, 112]
        { table := setHead emptyTable (bucket [107, 114, 117, 112])
            (Head.chain [nodeOf [98, 111], nodeOf [108, 113, 117, 112],
              nodeOf [97, 97, 97, 100, 117, 121]]),
          numberOfWordsLoaded := 3 } = some s1 ∧
      s1.table (bucket [99, 97, 116]) = Head.chain [] ∧
      s1.numberOfWordsLoaded = 3 ∧
      s1.table (bucket [107, 114, 117, 112]) = Head.chain c1 ∧ c1.length = 4 := by
  obtain ⟨s1, c1, h1, _, h3, h4, h5, _, h7, _⟩ := insert_frame [107, 114, 117, 112]
    { table := setHead emptyTable (bucket [107, 114, 117, 112])
        (Head.chain [nodeOf [98, 111], nodeOf [108, 113, 117, 112],
          nodeOf [97, 97, 97, 100, 117, 121]]),
      numberOfWordsLoaded := 3 }
    [nodeOf [98, 111], nodeOf [108, 113, 117, 112], nodeOf [97, 97, 97, 100, 117, 121]]
    (by decide) (by decide) (by simp only [setHead_same])
  have hne : bucket [99, 97, 116] ≠ bucket [107, 114, 117, 112] := by decide
  refine ⟨s1, c1, h1, ?_, h4, h5, h7⟩
  rw [h3 _ hne]
  simp only [setHead_other _ _ hne]
  rfl

/-! ### The bucket-placement invariant -/

theorem placed_empty : Placed emptyTable :=
  fun _ => ⟨[], rfl, by simp⟩

theorem putWordInTable_placed (w : List Nat) (s : State) (hlen : w.length ≤ LENGTH)
    (hs : Placed s.table) : ∃ s1, putWordInTable w s = some s1 ∧ Placed s1.table := by
  obtain ⟨c, hc, hmem⟩ := hs (bucket w)
  refine ⟨_, putWordInTable_live w s c hlen hc, fun i => ?_⟩
  by_cases hi : i = bucket w
  · subst hi
    refine ⟨_, setHead_same _ _ _, fun n hn => ?_⟩
    rcases mem_putInChain.1 hn with rfl | hn
    · exact ⟨rfl, rfl⟩
    · exact hmem n hn
  · simp only [setHead_other _ _ hi]
    exact hs i

theorem putWords_placed : ∀ (ws : List (List Nat)) (s : State),
    (∀ w ∈ ws, w ≠ [] ∧ w.length ≤ LENGTH) → Placed s.table →
    ∃ s1, putWords ws s = some s1 ∧ Placed s1.table
  | [], s, _, hs => ⟨s, rfl, hs⟩
  | w :: ws, s, hws, hs => by
    obtain ⟨s1, hput, hs1⟩ :=
      putWordInTable_placed w s (hws w (List.mem_cons_self _ _)).2 hs
    obtain ⟨s2, hrest, hs2⟩ :=
      putWords_placed ws s1 (fun x hx => hws x (List.mem_cons_of_mem _ hx)) hs1
    exact ⟨s2, by simp only [putWords, hput, hrest], hs2⟩

/-- C19: the bucket-placement invariant.  `putWordInTable`, on a non-empty word of at most
`LENGTH` characters, preserves the predicate that every entry stored in bucket `i` satisfies
`hash(entry.word) = i` and `entry.wordLength = length(entry.word)`; the cleared table
satisfies it, and so does every state reached from the cleared table by a sequence of such
calls. -/
theorem bucket_placement :
    (∀ (w : List Nat) (s : State), w ≠ [] → w.length ≤ LENGTH → Placed s.table →
      ∃ s1, putWordInTable w s = some s1 ∧ Placed s1.table) ∧
    Placed emptyTable ∧
    (∀ (ws : List (List Nat)) (n : Nat), (∀ w ∈ ws, w ≠ [] ∧ w.length ≤ LENGTH) →
      ∃ s1, putWords ws { table := emptyTable, numberOfWordsLoaded := n } = some s1 ∧
        Placed s1.table ∧
        ∀ i c, s1.table i = Head.chain c → ∀ e ∈ c,
          hash e.word = i.val ∧ e.wordLength = e.word.length) := by
  refine ⟨fun w s _ hlen hs => putWordInTable_placed w s hlen hs, placed_empty,
    fun ws n hws => ?_⟩
  obtain ⟨s1, h1, h2⟩ := putWords_placed ws
    { table := emptyTable, numberOfWordsLoaded := n } hws placed_empty
  refine ⟨s1, h1, h2, fun i c hc e he => ?_⟩
  obtain ⟨c1, hc1, hmem⟩ := h2 i
  rw [hc] at hc1
  simp only [Head.chain.injEq] at hc1
  subst hc1
  exact hmem e he

/-- C19 at the words `cat`, `krup`, `bo`, `lqup` put into the cleared table: the state
reached satisfies the predicate. -/
theorem bucket_placement_witness :
    ∃ s1, putWords [[99, 97, 116], [107, 114, 117, 112], [98, 111], [108, 113, 117, 112]]
        { table := emptyTable, numberOfWordsLoaded := 0 } = some s1 ∧ Placed s1.table :=
  (bucket_placement.2.2 [[99, 97, 116], [107, 114, 117, 112], [98, 111], [108, 113, 117, 112]]
    0 (by decide)).imp (fun _ h => ⟨h.1, h.2.1⟩)

end Dictionary
